import Mathlib

/-!
Verification of the loro CRDT core against its specification.

This file gives a shallow embedding of the sampled core:
* the value model (`crates/loro-common/src/value.rs`),
* the tracker effect iterator
  (`crates/loro-core/src/container/text/tracker/effects_iter.rs`)
  over a content-store model taken from the spec (the store internals are
  not part of the sampled sources),
* the critical-version frontier calculators
  (`crates/loro-internal/src/allocation/`, modelled from the spec since only
  the module declarations are in the sampled sources),
and proves the stated properties about these definitions.
-/

namespace LoroSpec

/-! ## Value model (`value.rs`)

`LoroValue` is a closed tagged union.  In the source the `Binary`, `String`,
`List` and `Map` variants carry `Arc<(payload, OnceCell<u64>)>`: a shared
payload paired with a lazily computed hash cache.  The cache participates in
the derived `PartialEq` (Rust's `OnceCell<u64>` compares its contents), so it
is modelled here as an explicit `Option Nat` field.  The `Double` payload is
modelled by the bit pattern of the IEEE-754 binary64 value (`f64::to_bits`),
because both the derived equality (f64 `==`) and the hash (`to_bits`) are
determined by the bits.  `ContainerID` is opaque and modelled as `Nat`;
byte and string payloads are `List Nat` / `String`; the `FxHashMap` payload
is modelled as its underlying sequence of distinct-key entries in iteration
order (`List (String × LoroValue)`). -/
inductive LoroValue where
  | null : LoroValue
  | bool (b : Bool) : LoroValue
  | double (bits : Nat) : LoroValue
  | i64 (n : Int) : LoroValue
  | binary (bytes : List Nat) (cache : Option Nat) : LoroValue
  | str (s : String) (cache : Option Nat) : LoroValue
  | list (xs : List LoroValue) (cache : Option Nat) : LoroValue
  | map (m : List (String × LoroValue)) (cache : Option Nat) : LoroValue
  | container (id : Nat) : LoroValue

/-- Bit pattern of `0.0_f64`. -/
def posZeroBits : Nat := 0

/-- Bit pattern of `-0.0_f64` (sign bit set, all else zero). -/
def negZeroBits : Nat := 2 ^ 63

/-- A binary64 bit pattern encodes a NaN iff the exponent field is all ones
and the mantissa is nonzero. -/
def f64IsNaN (bits : Nat) : Bool :=
  bits / 2 ^ 52 % 2 ^ 11 == 2047 && bits % 2 ^ 52 != 0

/-- A binary64 bit pattern encodes (positive or negative) zero iff all bits
except possibly the sign bit are clear. -/
def f64IsZero (bits : Nat) : Bool := bits % 2 ^ 63 == 0

/-- IEEE-754 equality of two binary64 values given by their bit patterns:
NaN compares unequal to everything; `0.0 == -0.0`; every other value has a
unique bit pattern, so equality is bit equality.  This is the semantics of
Rust's `==` on `f64`, used by the derived `PartialEq` of `LoroValue`. -/
def f64BitsEq (a b : Nat) : Bool :=
  !f64IsNaN a && !f64IsNaN b && (a == b || (f64IsZero a && f64IsZero b))

/-- Association-list lookup, first match wins: models `FxHashMap::get`. -/
def assocGet : List (String × LoroValue) → String → Option LoroValue
  | [], _ => none
  | (k, v) :: rest, key => if k = key then some v else assocGet rest key

/-- Derived `PartialEq` for `LoroValue` (`#[derive(PartialEq)]` in the
source).  Tuples compare componentwise, so the `OnceCell` caches are
compared; `Double` uses f64 `==`; `FxHashMap` equality is size equality plus
per-key lookup agreement. -/
def loroEq : LoroValue → LoroValue → Bool
  | .null, .null => true
  | .bool a, .bool b => a == b
  | .double a, .double b => f64BitsEq a b
  | .i64 a, .i64 b => a == b
  | .binary a ca, .binary b cb => a == b && ca == cb
  | .str a ca, .str b cb => a == b && ca == cb
  | .list a ca, .list b cb => loroEqList a b && ca == cb
  | .map a ca, .map b cb => (a.length == b.length && loroEqMapEntries a b) && ca == cb
  | .container a, .container b => a == b
  | _, _ => false
where
  /-- `Vec<LoroValue>` equality: pointwise. -/
  loroEqList : List LoroValue → List LoroValue → Bool
    | [], [] => true
    | a :: as', b :: bs' => loroEq a b && loroEqList as' bs'
    | _, _ => false
  /-- `FxHashMap` equality body: every entry of the first map is present in
  the second with an equal value (the length check is done by the caller). -/
  loroEqMapEntries : List (String × LoroValue) → List (String × LoroValue) → Bool
    | [], _ => true
    | (k, v) :: rest, other =>
      (match assocGet other k with
       | some v2 => loroEq v v2
       | none => false) && loroEqMapEntries rest other

/-- A concrete stand-in for `std::collections::hash_map::DefaultHasher`
applied to a stream of words: any fixed pure function works for the
properties below, since only agreement/disagreement of the written streams
is at stake. -/
def hashCombine (l : List Nat) : Nat :=
  l.foldl (fun acc x => acc * 1099511628211 + x + 1) 14695981039346656037

/-- Discriminant written first by `Hash for LoroValue`
(`std::mem::discriminant(self).hash(state)`). -/
def discr : LoroValue → Nat
  | .null => 0
  | .bool _ => 1
  | .double _ => 2
  | .i64 _ => 3
  | .binary _ _ => 4
  | .str _ _ => 5
  | .list _ _ => 6
  | .map _ _ => 7
  | .container _ => 8

/-- Two's-complement 64-bit image of an `i64` payload, as written by
`Hasher::write_i64`. -/
def i64Bits (n : Int) : Nat := ((n % 2 ^ 64 + 2 ^ 64) % 2 ^ 64).toNat

/-- The stream of words the hand-written `impl Hash for LoroValue` feeds to
the hasher.  Two values hash equal (for every hasher) iff their streams are
equal, so the streams are the faithful observable of the `Hash` impl.  For
the four cached variants the impl writes the cached inner hash when present
and otherwise computes the inner `DefaultHasher` hash of the payload (then
stores it; the store is not observable in the stream).  `Double` writes
`v.to_bits()`. -/
def hashStream (v : LoroValue) : List Nat :=
  match v with
  | .null => [discr v]
  | .bool b => [discr v, Bool.toNat b]
  | .double bits => [discr v, bits]
  | .i64 n => [discr v, i64Bits n]
  | .binary bytes c => [discr v, c.getD (hashCombine (bytes.length :: bytes))]
  | .str s c => [discr v, c.getD (hashCombine (s.data.map Char.toNat))]
  | .list xs c => [discr v, c.getD (hashCombine (xs.length :: hashStreamList xs))]
  | .map m c => [discr v, c.getD (hashCombine (m.length :: hashStreamMap m))]
  | .container id => [discr v, id]
where
  /-- Concatenated element streams (`Vec::hash` hashes each element). -/
  hashStreamList : List LoroValue → List Nat
    | [] => []
    | x :: rest => hashStream x ++ hashStreamList rest
  /-- Concatenated `(key, value)` streams in map iteration order. -/
  hashStreamMap : List (String × LoroValue) → List Nat
    | [] => []
    | (k, x) :: rest => hashCombine (k.data.map Char.toNat) :: hashStream x ++ hashStreamMap rest

/-! ### Depth (`get_depth`, `is_too_deep`, the `Arbitrary` boundary) -/

/-- `MAX_DEPTH` from the source. -/
def MAX_DEPTH : Nat := 128

/-- Nesting depth, the denotation of the worklist loop in
`LoroValue::get_depth`: the loop records `depth + 1` for every `List`/`Map`
node reached at distance `depth` from the root and returns the maximum (so a
leaf value has depth 0 and an empty list has depth 1). -/
def get_depth : LoroValue → Nat
  | .list xs _ => 1 + getDepthList xs
  | .map m _ => 1 + getDepthMap m
  | _ => 0
where
  /-- Maximum depth over the elements of a list payload. -/
  getDepthList : List LoroValue → Nat
    | [] => 0
    | v :: rest => max (get_depth v) (getDepthList rest)
  /-- Maximum depth over the values of a map payload. -/
  getDepthMap : List (String × LoroValue) → Nat
    | [] => 0
    | (_, v) :: rest => max (get_depth v) (getDepthMap rest)

/-- `LoroValue::is_too_deep`. -/
def is_too_deep (v : LoroValue) : Bool := MAX_DEPTH < get_depth v

/-- The acceptance boundary for user-provided instances
(`impl Arbitrary for LoroValue`): after building a candidate value, it is
rejected with `arbitrary::Error::IncorrectFormat` when
`value.get_depth() > MAX_DEPTH`, and returned unchanged otherwise. -/
def arbitraryCheck (v : LoroValue) : Except String LoroValue :=
  if MAX_DEPTH < get_depth v then .error "IncorrectFormat" else .ok v

/-! ### Lookup and indexing (`get_by_key`, `get_by_index`, `Index` impls) -/

/-- `LoroValue::get_by_key`. -/
def get_by_key (v : LoroValue) (key : String) : Option LoroValue :=
  match v with
  | .map m _ => assocGet m key
  | _ => none

/-- `LoroValue::get_by_index`. -/
def get_by_index (v : LoroValue) (index : Nat) : Option LoroValue :=
  match v with
  | .list xs _ => xs.get? index
  | _ => none

/-- `impl Index<&str> for LoroValue`: defaults to `Null`. -/
def indexStr (v : LoroValue) (index : String) : LoroValue :=
  match v with
  | .map m _ => (assocGet m index).getD .null
  | _ => .null

/-- `impl Index<usize> for LoroValue`: defaults to `Null`. -/
def indexNat (v : LoroValue) (index : Nat) : LoroValue :=
  match v with
  | .list xs _ => (xs.get? index).getD .null
  | _ => .null

/-! ### Fallible conversions (`TryFrom<LoroValue>` impls) -/

/-- `TryFrom<LoroValue> for bool`. -/
def tryBool : LoroValue → Except String Bool
  | .bool v => .ok v
  | _ => .error "not a bool"

/-- `TryFrom<LoroValue> for f64` (payload by bit pattern). -/
def tryDouble : LoroValue → Except String Nat
  | .double v => .ok v
  | _ => .error "not a double"

/-- Rust's `as` cast from `i64` to `i32`: truncate to the low 32 bits and
reinterpret in two's complement. -/
def i64AsI32 (n : Int) : Int :=
  if n % 2 ^ 32 < 2 ^ 31 then n % 2 ^ 32 else n % 2 ^ 32 - 2 ^ 32

/-- `TryFrom<LoroValue> for i32`: `Ok(v as i32)` on the `I64` variant. -/
def tryI32 : LoroValue → Except String Int
  | .i64 v => .ok (i64AsI32 v)
  | _ => .error "not a i32"

/-- `TryFrom<LoroValue> for Arc<Vec<u8>>` (payload bytes, `to_vec`). -/
def tryBinary : LoroValue → Except String (List Nat)
  | .binary v _ => .ok v
  | _ => .error "not a binary"

/-- `TryFrom<LoroValue> for Arc<String>` (payload clone). -/
def tryString : LoroValue → Except String String
  | .str v _ => .ok v
  | _ => .error "not a string"

/-- `TryFrom<LoroValue> for Arc<Vec<LoroValue>>` (payload clone). -/
def tryList : LoroValue → Except String (List LoroValue)
  | .list v _ => .ok v
  | _ => .error "not a list"

/-- `TryFrom<LoroValue> for Arc<FxHashMap<String, LoroValue>>`. -/
def tryMap : LoroValue → Except String (List (String × LoroValue))
  | .map v _ => .ok v
  | _ => .error "not a map"

/-- `TryFrom<LoroValue> for ContainerID`. -/
def tryContainer : LoroValue → Except String Nat
  | .container v => .ok v
  | _ => .error "not a container"

/-! ### Theorems about the value model -/

/-- A list nested to depth `n`: `nestedList 0` is `Null`, and each further
level wraps the previous value in a one-element list. -/
def nestedList : Nat → LoroValue
  | 0 => .null
  | n + 1 => .list [nestedList n] none

theorem get_depth_nestedList : ∀ n, get_depth (nestedList n) = n := by
  intro n
  induction n with
  | zero => rfl
  | succ k ih =>
    simp only [nestedList, get_depth, get_depth.getDepthList, ih]
    omega

/-- C5: nesting depth is the maximal list/map nesting; at the boundary where
user-provided instances are accepted (`Arbitrary for LoroValue`), a value of
depth 129 is rejected with the depth-exceeded failure while a value of depth
exactly 128 is accepted, and in general a value is accepted exactly when its
depth is at most `MAX_DEPTH = 128`. -/
theorem depth_boundary_accepts_128_rejects_129 :
    get_depth (nestedList 129) = 129 ∧
    is_too_deep (nestedList 129) = true ∧
    arbitraryCheck (nestedList 129) = .error "IncorrectFormat" ∧
    get_depth (nestedList 128) = 128 ∧
    is_too_deep (nestedList 128) = false ∧
    arbitraryCheck (nestedList 128) = .ok (nestedList 128) ∧
    (∀ v, arbitraryCheck v = .ok v ↔ get_depth v ≤ MAX_DEPTH) := by
  refine ⟨get_depth_nestedList 129, ?_, ?_, get_depth_nestedList 128, ?_, ?_, ?_⟩
  · simp [is_too_deep, get_depth_nestedList, MAX_DEPTH]
  · simp [arbitraryCheck, get_depth_nestedList, MAX_DEPTH]
  · simp [is_too_deep, get_depth_nestedList, MAX_DEPTH]
  · simp [arbitraryCheck, get_depth_nestedList, MAX_DEPTH]
  · intro v
    unfold arbitraryCheck MAX_DEPTH
    split <;> simp_all

/-- C6 (failing input): the derived `PartialEq` makes
`Double(0.0) == Double(-0.0)` (IEEE-754 equality), but the hand-written
`Hash` writes `v.to_bits()`, which differ (`0` versus `0x8000000000000000`),
so two equal values feed different streams to the hasher: equality and
hashing do not agree, violating the hash-map round-trip requirement. -/
theorem eq_hash_disagree_at_signed_zero :
    loroEq (.double posZeroBits) (.double negZeroBits) = true ∧
    hashStream (.double posZeroBits) ≠ hashStream (.double negZeroBits) :=
  ⟨by decide, by decide⟩

/-- C8: each per-variant fallible conversion is total, returns the variant's
payload exactly when the value is the matching variant, and otherwise
returns the typed wrong-variant error value. -/
theorem conversions_typed_wrong_variant : ∀ v : LoroValue,
    ((∀ b, tryBool v = .ok b ↔ v = .bool b) ∧
      (tryBool v = .error "not a bool" ∨ ∃ b, v = .bool b ∧ tryBool v = .ok b)) ∧
    ((∀ bits, tryDouble v = .ok bits ↔ v = .double bits) ∧
      (tryDouble v = .error "not a double" ∨ ∃ x, v = .double x ∧ tryDouble v = .ok x)) ∧
    ((∀ bs, tryBinary v = .ok bs ↔ ∃ c, v = .binary bs c) ∧
      (tryBinary v = .error "not a binary" ∨ ∃ bs c, v = .binary bs c ∧ tryBinary v = .ok bs)) ∧
    ((∀ s, tryString v = .ok s ↔ ∃ c, v = .str s c) ∧
      (tryString v = .error "not a string" ∨ ∃ s c, v = .str s c ∧ tryString v = .ok s)) ∧
    ((∀ xs, tryList v = .ok xs ↔ ∃ c, v = .list xs c) ∧
      (tryList v = .error "not a list" ∨ ∃ xs c, v = .list xs c ∧ tryList v = .ok xs)) ∧
    ((∀ m, tryMap v = .ok m ↔ ∃ c, v = .map m c) ∧
      (tryMap v = .error "not a map" ∨ ∃ m c, v = .map m c ∧ tryMap v = .ok m)) ∧
    ((∀ id, tryContainer v = .ok id ↔ v = .container id) ∧
      (tryContainer v = .error "not a container" ∨
        ∃ id, v = .container id ∧ tryContainer v = .ok id)) := by
  intro v
  cases v <;>
    simp [tryBool, tryDouble, tryBinary, tryString, tryList, tryMap, tryContainer]

/-- C9: indexing a value with a string key or a position never fails: it
agrees with the `get_by_key`/`get_by_index` lookups, returning the stored
element when present and `Null` when the key/index is absent or the value is
any other variant. -/
theorem index_total_defaults_to_null :
    (∀ v k, indexStr v k = (get_by_key v k).getD .null) ∧
    (∀ v i, indexNat v i = (get_by_index v i).getD .null) ∧
    (∀ m c k, indexStr (.map m c) k = (assocGet m k).getD .null) ∧
    (∀ xs c i, indexNat (.list xs c) i = (xs.get? i).getD .null) ∧
    (∀ v k, get_by_key v k = none → indexStr v k = .null) ∧
    (∀ v i, get_by_index v i = none → indexNat v i = .null) := by
  refine ⟨?_, ?_, ?_, ?_, ?_, ?_⟩
  · intro v k; cases v <;> rfl
  · intro v i; cases v <;> rfl
  · intro m c k; rfl
  · intro xs c i; rfl
  · intro v k h; cases v <;> simp_all [indexStr, get_by_key]
  · intro v i h; cases v <;> simp_all [indexNat, get_by_index, List.getElem?_eq_none]

theorem index_total_defaults_to_null_witness :
    get_by_key (.bool true) "k" = none ∧ indexStr (.bool true) "k" = .null ∧
    get_by_index (.list [.null] none) 3 = none ∧
    indexNat (.list [.null] none) 3 = .null :=
  ⟨rfl, index_total_defaults_to_null.2.2.2.2.1 (.bool true) "k" rfl, rfl,
    index_total_defaults_to_null.2.2.2.2.2 (.list [.null] none) 3 rfl⟩

/-- C10: converting the `I64` variant to a 32-bit integer succeeds for every
payload, returning the payload truncated modulo `2^32` in two's complement
(result in `[-2^31, 2^31)` and congruent to the payload mod `2^32`); only
non-`I64` variants produce the error. -/
theorem i32_conversion_wraps :
    (∀ n, tryI32 (.i64 n) = .ok (i64AsI32 n)) ∧
    (∀ n, -2 ^ 31 ≤ i64AsI32 n ∧ i64AsI32 n < 2 ^ 31) ∧
    (∀ n, (i64AsI32 n - n) % 2 ^ 32 = 0) ∧
    (∀ v, (∀ n, v ≠ .i64 n) → tryI32 v = .error "not a i32") := by
  have h1 : ∀ n : Int, 0 ≤ n % 2 ^ 32 := fun n => Int.emod_nonneg n (by norm_num)
  have h2 : ∀ n : Int, n % 2 ^ 32 < 2 ^ 32 := fun n => Int.emod_lt_of_pos n (by norm_num)
  have h3 : ∀ n : Int, (n % 2 ^ 32 - n) % 2 ^ 32 = 0 := by
    intro n
    rw [Int.sub_emod, Int.emod_emod_of_dvd _ (by norm_num), sub_self, Int.zero_emod]
  refine ⟨fun n => rfl, ?_, ?_, ?_⟩
  · intro n
    have := h1 n; have := h2 n
    unfold i64AsI32
    split <;> omega
  · intro n
    have := h3 n
    unfold i64AsI32
    split
    · omega
    · omega
  · intro v hv
    cases v <;> first
      | rfl
      | exact absurd rfl (hv _)

theorem i32_conversion_wraps_witness :
    tryI32 (.i64 (2 ^ 31)) = .ok (-2 ^ 31) ∧
    tryI32 (.bool true) = .error "not a i32" := by
  constructor
  · rw [i32_conversion_wraps.1 (2 ^ 31)]
    norm_num [i64AsI32]
  · exact i32_conversion_wraps.2.2.2 (.bool true) (by intro n h; cases h)

/-! ## Critical-version frontier calculator (`allocation/`)

Modelled from the spec: only the module declarations of
`calc_critical_version_bfs` / `calc_critical_version_dfs` are in the sampled
sources (`allocation/mod.rs`), so the two traversals are modelled from the
spec's description (§4.4): each traversal walks the causal dependency graph
from the supplied end points, visits each operation id exactly once
(memoized by id), accumulates the set of visited ids with no unvisited
dependents, and expresses that set as a version vector with one exclusive
counter boundary per client.  The production algorithm is breadth-first
(worklist used as a queue), the testing cross-check depth-first (worklist
used as a stack). -/

/-- An operation id: `(client, counter)`. -/
abbrev ClientCtr := Nat × Nat

/-- A node of the causal dependency graph: an operation id together with its
direct causal parents. -/
structure CNode where
  id : ClientCtr
  parents : List ClientCtr
  deriving DecidableEq, Repr

/-- A causal dependency graph. -/
abbrev CGraph := List CNode

/-- Direct parents of an id (empty for ids absent from the graph). -/
def parentsOf (g : CGraph) (x : ClientCtr) : List ClientCtr :=
  ((g.find? (fun n => n.id == x)).map CNode.parents).getD []

/-- Every id the traversal can ever touch: node ids, parent ids, end ids. -/
def univAll (g : CGraph) (ends : List ClientCtr) : Finset ClientCtr :=
  (g.map CNode.id ++ (g.map CNode.parents).flatten ++ ends).toFinset

/-- Causal reachability (through the parents relation). -/
def Reaches (g : CGraph) : ClientCtr → ClientCtr → Prop :=
  Relation.ReflTransGen (fun a b => b ∈ parentsOf g a)

/-- The memoized traversal shared by both calculators.  The worklist is a
queue for the breadth-first strategy (`depthFirst = false`: newly discovered
parents go to the back) and a stack for the depth-first strategy
(`depthFirst = true`: parents go to the front).  Already-visited ids are
skipped, so each id is visited exactly once.  `univ` is the finite universe
of ids; the traversal never meets an id outside it when started inside it. -/
def visitLoop (g : CGraph) (univ : Finset ClientCtr) (depthFirst : Bool) :
    List ClientCtr → Finset ClientCtr → Finset ClientCtr
  | [], vis => vis
  | x :: rest, vis =>
    if x ∈ vis then
      visitLoop g univ depthFirst rest vis
    else if hx : x ∈ univ then
      visitLoop g univ depthFirst
        (if depthFirst then parentsOf g x ++ rest else rest ++ parentsOf g x)
        (insert x vis)
    else
      visitLoop g univ depthFirst rest vis
termination_by wl vis => ((univ \ vis).card, wl.length)
decreasing_by
  · apply Prod.Lex.right
    rw [List.length_cons]
    omega
  · apply Prod.Lex.left
    rw [Finset.sdiff_insert]
    exact Finset.card_erase_lt_of_mem (Finset.mem_sdiff.mpr ⟨hx, by assumption⟩)
  · apply Prod.Lex.right
    rw [List.length_cons]
    omega

/-- The set of ids visited by a full traversal from the end list. -/
def visitedSet (g : CGraph) (depthFirst : Bool) (ends : List ClientCtr) :
    Finset ClientCtr :=
  visitLoop g (univAll g ends) depthFirst ends ∅

/-- The accumulated critical ids: visited ids with no unvisited dependents. -/
def criticalSet (g : CGraph) (vis : Finset ClientCtr) : Finset ClientCtr :=
  vis.filter (fun x => ∀ n ∈ g, x ∈ n.parents → n.id ∈ vis)

/-- Express a critical set as a version vector: one exclusive counter
boundary per client appearing in the set. -/
def toVersionVector (crit : Finset ClientCtr) : Finset ClientCtr :=
  (crit.image Prod.fst).image
    (fun c => (c, (crit.filter (fun p => p.1 = c)).sup (fun p => p.2 + 1)))

/-- Modelled from the spec: the production breadth-first critical-version
calculator. -/
def calc_critical_version_bfs (g : CGraph) (ends : List ClientCtr) :
    Finset ClientCtr :=
  toVersionVector (criticalSet g (visitedSet g false ends))

/-- Modelled from the spec: the depth-first testing cross-check. -/
def calc_critical_version_dfs (g : CGraph) (ends : List ClientCtr) :
    Finset ClientCtr :=
  toVersionVector (criticalSet g (visitedSet g true ends))

theorem parentsOf_subset_univAll (g : CGraph) (ends : List ClientCtr)
    (x p : ClientCtr) (hp : p ∈ parentsOf g x) : p ∈ univAll g ends := by
  unfold parentsOf at hp
  unfold univAll
  cases hfind : g.find? (fun n => n.id == x) with
  | none => rw [hfind] at hp; simp at hp
  | some n =>
    rw [hfind] at hp
    simp at hp
    have hn : n ∈ g := List.mem_of_find?_eq_some hfind
    simp only [List.mem_toFinset, List.mem_append]
    left; right
    rw [List.mem_flatten]
    exact ⟨n.parents, List.mem_map_of_mem CNode.parents hn, hp⟩

theorem mem_of_reaches_closed (g : CGraph) (S : Finset ClientCtr)
    (hc : ∀ v ∈ S, ∀ p ∈ parentsOf g v, p ∈ S) :
    ∀ s y, s ∈ S → Reaches g s y → y ∈ S := by
  intro s y hs hr
  induction hr with
  | refl => exact hs
  | tail _ hstep ih => exact hc _ ih _ hstep

theorem mem_ite_append {α : Type} (b : Bool) (l₁ l₂ : List α) (z : α) :
    (z ∈ if b then l₁ ++ l₂ else l₂ ++ l₁) ↔ z ∈ l₁ ∨ z ∈ l₂ := by
  cases b <;> simp [List.mem_append] <;> tauto

/-- Characterization of the traversal: under the loop invariant (every
visited id's parents are visited or queued) the result is exactly the set of
ids reachable from the visited-or-queued ids — independently of the
breadth-first/depth-first strategy. -/
theorem visitLoop_mem (g : CGraph) (univ : Finset ClientCtr) (df : Bool)
    (hp : ∀ x p, p ∈ parentsOf g x → p ∈ univ) :
    ∀ wl vis, (∀ x ∈ wl, x ∈ univ) →
      (∀ v ∈ vis, ∀ p ∈ parentsOf g v, p ∈ vis ∨ p ∈ wl) →
      ∀ y, y ∈ visitLoop g univ df wl vis ↔
        ∃ s, (s ∈ vis ∨ s ∈ wl) ∧ Reaches g s y := by
  intro wl vis
  induction wl, vis using visitLoop.induct g univ df with
  | case1 vis =>
    intro _ hinv y
    rw [visitLoop]
    constructor
    · intro hy
      exact ⟨y, Or.inl hy, Relation.ReflTransGen.refl⟩
    · rintro ⟨s, hs | hs, hr⟩
      · exact mem_of_reaches_closed g vis
          (fun v hv p hp' => (hinv v hv p hp').resolve_right (by simp)) s y hs hr
      · simp at hs
  | case2 x rest vis hxvis ih =>
    intro hw hinv y
    rw [visitLoop, if_pos hxvis]
    rw [ih (fun z hz => hw z (List.mem_cons_of_mem x hz))
      (fun v hv p hp' => by
        rcases hinv v hv p hp' with h | h
        · exact Or.inl h
        · rcases List.mem_cons.mp h with rfl | h
          · exact Or.inl hxvis
          · exact Or.inr h)]
    constructor
    · rintro ⟨s, hs | hs, hr⟩
      · exact ⟨s, Or.inl hs, hr⟩
      · exact ⟨s, Or.inr (List.mem_cons_of_mem x hs), hr⟩
    · rintro ⟨s, hs | hs, hr⟩
      · exact ⟨s, Or.inl hs, hr⟩
      · rcases List.mem_cons.mp hs with rfl | hs
        · exact ⟨s, Or.inl hxvis, hr⟩
        · exact ⟨s, Or.inr hs, hr⟩
  | case3 x rest vis hxvis hxu ih =>
    intro hw hinv y
    simp only [dite_eq_ite] at ih
    rw [visitLoop, if_neg hxvis, dif_pos hxu]
    rw [ih (fun z hz => by
        rcases (mem_ite_append df (parentsOf g x) rest z).mp hz with h | h
        · exact hp x z h
        · exact hw z (List.mem_cons_of_mem x h))
      (fun v hv p hp' => by
        rcases Finset.mem_insert.mp hv with rfl | hv
        · exact Or.inr ((mem_ite_append df (parentsOf g v) rest p).mpr (Or.inl hp'))
        · rcases hinv v hv p hp' with h | h
          · exact Or.inl (Finset.mem_insert_of_mem h)
          · rcases List.mem_cons.mp h with rfl | h
            · exact Or.inl (Finset.mem_insert_self p vis)
            · exact Or.inr ((mem_ite_append df (parentsOf g x) rest p).mpr (Or.inr h)))]
    constructor
    · rintro ⟨s, hs | hs, hr⟩
      · rcases Finset.mem_insert.mp hs with rfl | hs
        · exact ⟨s, Or.inr (List.mem_cons_self s rest), hr⟩
        · exact ⟨s, Or.inl hs, hr⟩
      · rcases (mem_ite_append df (parentsOf g x) rest s).mp hs with h | h
        · exact ⟨x, Or.inr (List.mem_cons_self x rest),
            Relation.ReflTransGen.head h hr⟩
        · exact ⟨s, Or.inr (List.mem_cons_of_mem x h), hr⟩
    · rintro ⟨s, hs | hs, hr⟩
      · exact ⟨s, Or.inl (Finset.mem_insert_of_mem hs), hr⟩
      · rcases List.mem_cons.mp hs with rfl | hs
        · exact ⟨s, Or.inl (Finset.mem_insert_self s vis), hr⟩
        · exact ⟨s, Or.inr ((mem_ite_append df (parentsOf g x) rest s).mpr (Or.inr hs)), hr⟩
  | case4 x rest vis hxvis hxu ih =>
    intro hw _ y
    exact absurd (hw x (List.mem_cons_self x rest)) hxu

theorem visitedSet_bfs_eq_dfs (g : CGraph) (ends : List ClientCtr) :
    visitedSet g false ends = visitedSet g true ends := by
  unfold visitedSet
  have hw : ∀ x ∈ ends, x ∈ univAll g ends := by
    intro x hx
    unfold univAll
    simp only [List.mem_toFinset, List.mem_append]
    exact Or.inr hx
  have hinv : ∀ v ∈ (∅ : Finset ClientCtr), ∀ p ∈ parentsOf g v,
      p ∈ (∅ : Finset ClientCtr) ∨ p ∈ ends :=
    fun v hv => absurd hv (Finset.not_mem_empty v)
  ext y
  rw [visitLoop_mem g _ false (parentsOf_subset_univAll g ends) ends ∅ hw hinv y,
    visitLoop_mem g _ true (parentsOf_subset_univAll g ends) ends ∅ hw hinv y]

/-- C4: for every causal dependency graph and every end list, the
breadth-first critical-version calculator (the production algorithm) and the
depth-first calculator (the testing cross-check) return identical version
vectors. -/
theorem frontier_bfs_eq_dfs : ∀ (g : CGraph) (ends : List ClientCtr),
    calc_critical_version_bfs g ends = calc_critical_version_dfs g ends := by
  intro g ends
  unfold calc_critical_version_bfs calc_critical_version_dfs
  rw [visitedSet_bfs_eq_dfs]

/-! ## Tracker / effect projector (`effects_iter.rs`)

`EffectIter::next` is embedded from the source.  The content store it walks
(`Tracker.id_to_cursor`, `Tracker::update_cursors`, the y-span statuses) is
not part of the sampled sources, so the store is modelled from the spec
(§3, §4.2): an ordered sequence of unit-length content elements, each
tagged with its origin id (client, counter) and causal status
(`future` = not yet made current, `deleteTimes` = number of concurrent
deletes applied), plus the integrated delete operations, which occupy their
own id ranges and point at the id-spans of the content they remove.  A
"physical span" is a maximal run of document-adjacent elements with
consecutive counters from one client and identical status (the rle form of
the store), so a resolved cursor covers such a run clipped to the queried
span, and a status update applies to each element of the covered run. -/

/-- A contiguous run of operation ids from one client;
`stop` is exclusive. -/
structure IdSpan where
  client : Nat
  start : Nat
  stop : Nat
  deriving DecidableEq, Repr

/-- `content_len` of an id-span. -/
def IdSpan.len (sp : IdSpan) : Nat := sp.stop - sp.start

/-- Total length of a list of id-spans (`HasLength` on a target list). -/
def sumLens (l : List IdSpan) : Nat := (l.map IdSpan.len).sum

/-- One content element of the store: origin id plus causal status. -/
structure Elem where
  client : Nat
  counter : Nat
  future : Bool
  deleteTimes : Nat
  deriving DecidableEq, Repr

/-- An element is visible iff it has been made current and no delete has
been applied to it. -/
def Elem.visible (e : Elem) : Bool := !e.future && e.deleteTimes == 0

/-- `StatusChange` from `y_span.rs` (only the first two are used by the
effect iterator). -/
inductive StatusChange where
  | setAsCurrent : StatusChange
  | delete : StatusChange
  | undo : StatusChange
  deriving DecidableEq, Repr

/-- Apply a status change to one element (spec §4.2
`update_causal_status`). -/
def applyChange (e : Elem) (c : StatusChange) : Elem :=
  match c with
  | .setAsCurrent => { e with future := false }
  | .delete => { e with deleteTimes := e.deleteTimes + 1 }
  | .undo => { e with deleteTimes := e.deleteTimes - 1 }

/-- An integrated delete operation: its own id range starts at
`(client, counter)` and its length is the total length of its targets; the
targets are the id-spans of the content it removes. -/
structure DeleteOp where
  client : Nat
  counter : Nat
  targets : List IdSpan
  deriving DecidableEq, Repr

/-- Id-length of a delete operation. -/
def DeleteOp.len (d : DeleteOp) : Nat := sumLens d.targets

/-- The content store: elements in document order plus integrated delete
operations.  The effect iterator mutates only element statuses. -/
structure Tracker where
  elems : List Elem
  deletes : List DeleteOp
  deriving DecidableEq, Repr

/-- Number of visible elements of a segment. -/
def countVisible (l : List Elem) : Nat := (l.filter Elem.visible).length

/-- Total visible length of the store. -/
def Tracker.totalVisible (t : Tracker) : Nat := countVisible t.elems

/-- `cursor.get_index()`: the visible index of document position `p`. -/
def get_index (t : Tracker) (p : Nat) : Nat := countVisible (t.elems.take p)

/-- Apply a status change to the elements at document positions
`[p, p + len)`. -/
def updateElems : List Elem → Nat → Nat → StatusChange → List Elem
  | [], _, _, _ => []
  | e :: rest, p + 1, len, ch => e :: updateElems rest p len ch
  | e :: rest, 0, len + 1, ch => applyChange e ch :: updateElems rest 0 len ch
  | l, 0, 0, _ => l

/-- Signed visible-length delta caused by applying a status change to the
elements at document positions `[p, p + len)`. -/
def deltaElems : List Elem → Nat → Nat → StatusChange → Int
  | [], _, _, _ => 0
  | _ :: rest, p + 1, len, ch => deltaElems rest p len ch
  | e :: rest, 0, len + 1, ch =>
    ((applyChange e ch).visible.toNat : Int) - (e.visible.toNat : Int) +
      deltaElems rest 0 len ch
  | _, 0, 0, _ => 0

/-- `Tracker::update_cursors`: apply a status change to the cursor's covered
range; the first component is the updated store and the second the signed
visible-length delta the change caused (spec §4.2: positive for becoming
visible, negative for becoming invisible). -/
def update_cursors (t : Tracker) (p len : Nat) (ch : StatusChange) :
    Tracker × Int :=
  (⟨updateElems t.elems p len ch, t.deletes⟩, deltaElems t.elems p len ch)

/-- Smallest element of a list of counters. -/
def listMin? : List Nat → Option Nat
  | [] => none
  | x :: rest =>
    match listMin? rest with
    | none => some x
    | some m => some (min x m)

/-- Counters of content elements lying inside the queried span. -/
def insCandidates (t : Tracker) (sp : IdSpan) : List Nat :=
  t.elems.filterMap fun e =>
    if e.client = sp.client ∧ sp.start ≤ e.counter ∧ e.counter < sp.stop
    then some e.counter else none

/-- First covered counter of each delete operation overlapping the queried
span. -/
def delCandidates (t : Tracker) (sp : IdSpan) : List Nat :=
  t.deletes.filterMap fun d =>
    if d.client = sp.client ∧
        max d.counter sp.start < min (d.counter + d.len) sp.stop
    then some (max d.counter sp.start) else none

/-- Document position of the first element with the given id. -/
def findPos : List Elem → Nat → Nat → Option Nat
  | [], _, _ => none
  | e :: rest, cl, c =>
    if e.client = cl ∧ e.counter = c then some 0
    else (findPos rest cl c).map (· + 1)

/-- Length of the maximal uniform run: document-adjacent elements with
consecutive counters from `c`, client `cl`, all with status
`(fut, dt)`, stopping before counter `stop`. -/
def runLenFrom : List Elem → Nat → Nat → Bool → Nat → Nat → Nat
  | [], _, _, _, _, _ => 0
  | e :: rest, cl, c, fut, dt, stop =>
    if e.client = cl ∧ e.counter = c ∧ e.future = fut ∧ e.deleteTimes = dt ∧
        c < stop
    then runLenFrom rest cl (c + 1) fut dt stop + 1
    else 0

/-- Slice of a target list: the ids at offsets `[off, off + len)` into the
concatenation of the spans (used when a span covers only part of a delete
operation). -/
def sliceSpans : List IdSpan → Nat → Nat → List IdSpan
  | [], _, _ => []
  | sp :: rest, off, len =>
    if len = 0 then []
    else if sp.len ≤ off then sliceSpans rest (off - sp.len) len
    else
      ⟨sp.client, sp.start + off, sp.start + off + min (sp.len - off) len⟩ ::
        sliceSpans rest 0 (len - min (sp.len - off) len)

/-- The id at offset `off` into the concatenation of a target list. -/
def targetIdAt : List IdSpan → Nat → Option (Nat × Nat)
  | [], _ => none
  | sp :: rest, off =>
    if off < sp.len then some (sp.client, sp.start + off)
    else targetIdAt rest (off - sp.len)

/-- `FirstCursorResult` from `cursor_map.rs`: the first cursor covering a
queried id-span resolves either to content (an insertion cursor: the first
covered counter, its document position and the clipped uniform run length)
or to a delete operation (its first covered counter and the correspondingly
clipped list of its targets).  The result's client is the queried span's
client by construction. -/
inductive FirstCursorResult where
  | ins (id : Nat) (pos : Nat) (len : Nat) : FirstCursorResult
  | del (id : Nat) (targets : List IdSpan) : FirstCursorResult
  deriving DecidableEq, Repr

/-- Build the insertion cursor at counter `id0`. -/
def mkIns (t : Tracker) (sp : IdSpan) (id0 : Nat) : Option FirstCursorResult :=
  match findPos t.elems sp.client id0 with
  | none => none
  | some p =>
    match t.elems.get? p with
    | none => none
    | some e =>
      some (.ins id0 p
        (runLenFrom (t.elems.drop p) sp.client id0 e.future e.deleteTimes sp.stop))

/-- Build the deletion cursor at first covered counter `dm`. -/
def mkDel (t : Tracker) (sp : IdSpan) (dm : Nat) : Option FirstCursorResult :=
  match t.deletes.find? (fun d =>
      d.client == sp.client &&
      decide (max d.counter sp.start < min (d.counter + d.len) sp.stop) &&
      (max d.counter sp.start == dm)) with
  | none => none
  | some d =>
    some (.del dm (sliceSpans d.targets (dm - d.counter)
      (min (d.counter + d.len) sp.stop - dm)))

/-- `CursorMap::get_first_cursors_at_id_span`: the cursor covering the
smallest covered id within the span, or `none` when nothing covers it. -/
def get_first_cursors_at_id_span (t : Tracker) (sp : IdSpan) :
    Option FirstCursorResult :=
  match listMin? (insCandidates t sp), listMin? (delCandidates t sp) with
  | none, none => none
  | some i, none => mkIns t sp i
  | none, some dm => mkDel t sp dm
  | some i, some dm => if i ≤ dm then mkIns t sp i else mkDel t sp dm

/-- The effects the iterator yields (`Effect` in the source); the content
of an `Ins` is identified by the id-span of the slice made visible. -/
inductive Effect where
  | del (pos : Nat) (len : Nat) : Effect
  | ins (pos : Nat) (content : IdSpan) : Effect
  deriving DecidableEq, Repr

/-- The state of `EffectIter`: the store, the outer target stack
(`left_spans`, head = top), the current span and the current delete-target
work list (head = top; the source `Vec` pops from the back, so the slicing
below pushes in reversed order). -/
structure IterState where
  t : Tracker
  left : List IdSpan
  cur : Option IdSpan
  delT : List IdSpan
  deriving DecidableEq, Repr

/-- Result of one loop iteration of `EffectIter::next`: an assertion or
`unwrap` failure, the terminal state, or a successor state together with
the effect emitted by this iteration (if any). -/
inductive StepRes where
  | fail : StepRes
  | done : StepRes
  | cont (s : IterState) (e : Option Effect) : StepRes
  deriving DecidableEq, Repr

/-- One iteration of the loop body of `EffectIter::next`, embedded from the
source.  Priority order as in the code: the inner delete-target work list
first; then the current span (insertion cursors advance it and may emit
`Ins`; deletion cursors advance it and load the work list); finally the
outer stack is popped, and the pass is done when everything is empty.
Assertions and `unwrap`s of the source are modelled as guards returning
`.fail`. -/
def step (s : IterState) : StepRes :=
  match s.delT with
  | dt :: rest =>
    match get_first_cursors_at_id_span s.t dt with
    | some (.ins id p clen) =>
      if id = dt.start then
        if -(update_cursors s.t p clen .delete).2 < 0 then .fail
        else if 0 < -(update_cursors s.t p clen .delete).2 then
          if -(update_cursors s.t p clen .delete).2 = (clen : Int) then
            .cont ⟨(update_cursors s.t p clen .delete).1, s.left, s.cur,
                if clen ≠ dt.len ∧ 0 < dt.stop - (id + clen)
                then ⟨dt.client, id + clen, dt.stop⟩ :: rest else rest⟩
              (some (.del (get_index s.t p) clen))
          else .fail
        else
          .cont ⟨(update_cursors s.t p clen .delete).1, s.left, s.cur,
              if clen ≠ dt.len ∧ 0 < dt.stop - (id + clen)
              then ⟨dt.client, id + clen, dt.stop⟩ :: rest else rest⟩ none
      else .fail
    | _ => .fail
  | [] =>
    match s.cur with
    | some c =>
      match get_first_cursors_at_id_span s.t c with
      | some (.ins id p clen) =>
        if c.start ≤ id ∧ id < c.stop ∧ c.start ≤ id + clen - 1 ∧
            id + clen - 1 < c.stop then
          if 0 < (update_cursors s.t p clen .setAsCurrent).2 then
            if (update_cursors s.t p clen .setAsCurrent).2 = (clen : Int) then
              .cont ⟨(update_cursors s.t p clen .setAsCurrent).1, s.left,
                  some ⟨c.client, id + clen, c.stop⟩, []⟩
                (some (.ins (get_index s.t p) ⟨c.client, id, id + clen⟩))
            else .fail
          else
            .cont ⟨(update_cursors s.t p clen .setAsCurrent).1, s.left,
                some ⟨c.client, id + clen, c.stop⟩, []⟩ none
        else .fail
      | some (.del id dtargets) =>
        if c.start ≤ id ∧ id < c.stop ∧ c.start ≤ id + sumLens dtargets - 1 ∧
            id + sumLens dtargets - 1 < c.stop then
          .cont ⟨s.t, s.left, some ⟨c.client, id + sumLens dtargets, c.stop⟩,
              dtargets.reverse⟩ none
        else .fail
      | none => .cont ⟨s.t, s.left, none, []⟩ none
    | none =>
      match s.left with
      | [] => .done
      | l :: ls => .cont ⟨s.t, ls, some l, []⟩ none

/-- Termination variant of the pass (claim: forward progress): outer spans
weigh triple, the current span double; popping outer spans and dropping the
current span are paid for by the count/flag summands. -/
def rank (s : IterState) : Nat :=
  3 * sumLens s.left + 2 * s.left.length +
    2 * (match s.cur with | some c => c.len | none => 0) +
    sumLens s.delT +
    (match s.cur with | some _ => 1 | none => 0)

/-! ### Lemmas about cursor resolution -/

theorem listMin?_eq_none {l : List Nat} (h : listMin? l = none) : l = [] := by
  cases l with
  | nil => rfl
  | cons x rest =>
    unfold listMin? at h
    cases hr : listMin? rest <;> rw [hr] at h <;> cases h

theorem listMin?_mem : ∀ {l : List Nat} {m}, listMin? l = some m → m ∈ l := by
  intro l
  induction l with
  | nil => intro m h; simp [listMin?] at h
  | cons x rest ih =>
    intro m h
    unfold listMin? at h
    cases hr : listMin? rest with
    | none => rw [hr] at h; simp at h; simp [h]
    | some m2 =>
      rw [hr] at h
      simp at h
      rcases Nat.le_total x m2 with hle | hle
      · rw [min_eq_left hle] at h
        simp [h]
      · rw [min_eq_right hle] at h
        exact List.mem_cons_of_mem x (h ▸ ih hr)

theorem listMin?_le : ∀ {l : List Nat} {m}, listMin? l = some m →
    ∀ x ∈ l, m ≤ x := by
  intro l
  induction l with
  | nil => intro m h; simp [listMin?] at h
  | cons x rest ih =>
    intro m h y hy
    unfold listMin? at h
    cases hr : listMin? rest with
    | none =>
      rw [hr] at h
      simp at h
      subst h
      rcases List.mem_cons.mp hy with rfl | hy
      · exact le_refl y
      · rw [listMin?_eq_none hr] at hy; simp at hy
    | some m2 =>
      rw [hr] at h
      simp at h
      subst h
      rcases List.mem_cons.mp hy with rfl | hy
      · exact min_le_left _ _
      · exact le_trans (min_le_right _ _) (ih hr y hy)

theorem listMin?_isSome : ∀ {l : List Nat}, l ≠ [] → ∃ m, listMin? l = some m := by
  intro l h
  cases l with
  | nil => exact absurd rfl h
  | cons x rest =>
    unfold listMin?
    cases listMin? rest with
    | none => exact ⟨x, rfl⟩
    | some m => exact ⟨min x m, rfl⟩

theorem mem_insCandidates {t : Tracker} {sp : IdSpan} {c : Nat}
    (h : c ∈ insCandidates t sp) :
    sp.start ≤ c ∧ c < sp.stop ∧
      ∃ e ∈ t.elems, e.client = sp.client ∧ e.counter = c := by
  unfold insCandidates at h
  rcases List.mem_filterMap.mp h with ⟨e, he, hf⟩
  split at hf
  · injection hf with hf
    subst hf
    rename_i hcond
    exact ⟨hcond.2.1, hcond.2.2, e, he, hcond.1, rfl⟩
  · cases hf

theorem insCandidates_of_elem {t : Tracker} {sp : IdSpan} {e : Elem}
    (he : e ∈ t.elems) (h1 : e.client = sp.client) (h2 : sp.start ≤ e.counter)
    (h3 : e.counter < sp.stop) : e.counter ∈ insCandidates t sp := by
  unfold insCandidates
  exact List.mem_filterMap.mpr ⟨e, he, by rw [if_pos ⟨h1, h2, h3⟩]⟩

theorem mem_delCandidates {t : Tracker} {sp : IdSpan} {c : Nat}
    (h : c ∈ delCandidates t sp) : sp.start ≤ c := by
  unfold delCandidates at h
  rcases List.mem_filterMap.mp h with ⟨d, _, hf⟩
  split at hf
  · injection hf with hf
    subst hf
    exact le_max_right d.counter sp.start
  · cases hf

theorem findPos_spec : ∀ {l : List Elem} {cl c p}, findPos l cl c = some p →
    ∃ e, l.get? p = some e ∧ e.client = cl ∧ e.counter = c := by
  intro l
  induction l with
  | nil => intro cl c p h; simp [findPos] at h
  | cons e rest ih =>
    intro cl c p h
    unfold findPos at h
    split at h
    · rename_i hcond
      simp at h
      exact h ▸ ⟨e, rfl, hcond.1, hcond.2⟩
    · rcases Option.map_eq_some'.mp h with ⟨q, hq, rfl⟩
      rcases ih hq with ⟨e2, hget, h1, h2⟩
      exact ⟨e2, by simpa using hget, h1, h2⟩

theorem findPos_isSome : ∀ {l : List Elem} {e : Elem}, e ∈ l →
    ∀ {cl c}, e.client = cl → e.counter = c → ∃ p, findPos l cl c = some p := by
  intro l
  induction l with
  | nil => intro e he; simp at he
  | cons x rest ih =>
    intro e he cl c h1 h2
    unfold findPos
    by_cases hx : x.client = cl ∧ x.counter = c
    · rw [if_pos hx]; exact ⟨0, rfl⟩
    · rw [if_neg hx]
      rcases List.mem_cons.mp he with rfl | he
      · exact absurd ⟨h1, h2⟩ hx
      · rcases ih he h1 h2 with ⟨p, hp⟩
        exact ⟨p + 1, by rw [hp]; rfl⟩

theorem runLenFrom_le_sub : ∀ (l : List Elem) (cl c : Nat) (fut : Bool) (dt stop : Nat),
    runLenFrom l cl c fut dt stop ≤ stop - c := by
  intro l
  induction l with
  | nil => intro cl c fut dt stop; simp [runLenFrom]
  | cons e rest ih =>
    intro cl c fut dt stop
    unfold runLenFrom
    split
    · rename_i hcond
      have := ih cl (c + 1) fut dt stop
      omega
    · omega

theorem runLenFrom_le_length : ∀ (l : List Elem) (cl c : Nat) (fut : Bool) (dt stop : Nat),
    runLenFrom l cl c fut dt stop ≤ l.length := by
  intro l
  induction l with
  | nil => intro cl c fut dt stop; simp [runLenFrom]
  | cons e rest ih =>
    intro cl c fut dt stop
    unfold runLenFrom
    split
    · have := ih cl (c + 1) fut dt stop
      simp only [List.length_cons]
      omega
    · simp

theorem runLenFrom_spec : ∀ (l : List Elem) (cl c : Nat) (fut : Bool) (dt stop : Nat)
    (k : Nat), k < runLenFrom l cl c fut dt stop →
    ∃ e, l.get? k = some e ∧ e.client = cl ∧ e.counter = c + k ∧
      e.future = fut ∧ e.deleteTimes = dt ∧ c + k < stop := by
  intro l
  induction l with
  | nil => intro cl c fut dt stop k h; simp [runLenFrom] at h
  | cons e rest ih =>
    intro cl c fut dt stop k h
    unfold runLenFrom at h
    split at h
    · rename_i hcond
      cases k with
      | zero => exact ⟨e, rfl, hcond.1, by omega, hcond.2.2.1, hcond.2.2.2.1, by omega⟩
      | succ k2 =>
        rcases ih cl (c + 1) fut dt stop k2 (by omega) with
          ⟨e2, hget, h1, h2, h3, h4, h5⟩
        exact ⟨e2, by simpa using hget, h1, by omega, h3, h4, by omega⟩
    · omega

theorem runLenFrom_pos {l : List Elem} {e : Elem} {cl c : Nat} {fut : Bool} {dt stop : Nat}
    (hl : l.get? 0 = some e) (h1 : e.client = cl) (h2 : e.counter = c)
    (h3 : e.future = fut) (h4 : e.deleteTimes = dt) (h5 : c < stop) :
    1 ≤ runLenFrom l cl c fut dt stop := by
  cases l with
  | nil => simp at hl
  | cons x rest =>
    injection hl with hl
    subst hl
    unfold runLenFrom
    rw [if_pos ⟨h1, h2, h3, h4, h5⟩]
    omega

theorem sumLens_nil : sumLens [] = 0 := rfl

theorem sumLens_cons (sp : IdSpan) (l : List IdSpan) :
    sumLens (sp :: l) = sp.len + sumLens l := by
  simp [sumLens]

theorem sumLens_reverse (l : List IdSpan) : sumLens l.reverse = sumLens l := by
  simp [sumLens, List.sum_reverse]

theorem sliceSpans_sum : ∀ (ts : List IdSpan) (off len : Nat),
    sumLens (sliceSpans ts off len) = min len (sumLens ts - off) := by
  intro ts
  induction ts with
  | nil => intro off len; simp [sliceSpans, sumLens]
  | cons sp rest ih =>
    intro off len
    unfold sliceSpans
    split
    · rename_i h0
      subst h0
      simp [sumLens]
    · split
      · rename_i h0 hskip
        rw [ih (off - sp.len) len, sumLens_cons]
        simp only [IdSpan.len] at hskip ⊢
        omega
      · rename_i h0 hskip
        rw [sumLens_cons, ih 0 (len - min (sp.len - off) len), sumLens_cons]
        simp only [IdSpan.len] at hskip ⊢
        omega

theorem sliceSpans_pos : ∀ (ts : List IdSpan) (off len : Nat),
    ∀ sp' ∈ sliceSpans ts off len, sp'.start < sp'.stop := by
  intro ts
  induction ts with
  | nil => intro off len sp' h; simp [sliceSpans] at h
  | cons sp rest ih =>
    intro off len sp' h
    unfold sliceSpans at h
    split at h
    · simp at h
    · split at h
      · exact ih _ _ sp' h
      · rename_i h0 hskip
        rcases List.mem_cons.mp h with rfl | h
        · show sp.start + off < sp.start + off + min (sp.len - off) len
          simp only [IdSpan.len] at hskip ⊢
          omega
        · exact ih _ _ sp' h

theorem sliceSpans_ids : ∀ (ts : List IdSpan) (off len : Nat),
    ∀ sp' ∈ sliceSpans ts off len, ∀ c, sp'.start ≤ c → c < sp'.stop →
      ∃ sp ∈ ts, sp.client = sp'.client ∧ sp.start ≤ c ∧ c < sp.stop := by
  intro ts
  induction ts with
  | nil => intro off len sp' h; simp [sliceSpans] at h
  | cons sp rest ih =>
    intro off len sp' h c hc1 hc2
    unfold sliceSpans at h
    split at h
    · simp at h
    · split at h
      · rcases ih _ _ sp' h c hc1 hc2 with ⟨sp2, h2, h3⟩
        exact ⟨sp2, List.mem_cons_of_mem sp h2, h3⟩
      · rename_i h0 hskip
        rcases List.mem_cons.mp h with rfl | h
        · refine ⟨sp, List.mem_cons_self sp rest, rfl, ?_, ?_⟩
          · simp only at hc1
            omega
          · simp only [IdSpan.len] at hc1 hc2 hskip
            omega
        · rcases ih _ _ sp' h c hc1 hc2 with ⟨sp2, h2, h3⟩
          exact ⟨sp2, List.mem_cons_of_mem sp h2, h3⟩

theorem sliceSpans_targetIdAt : ∀ (ts : List IdSpan) (off len : Nat),
    ∀ sp' ∈ sliceSpans ts off len, ∀ c, sp'.start ≤ c → c < sp'.stop →
      ∃ k, k < len ∧ targetIdAt ts (off + k) = some (sp'.client, c) := by
  intro ts
  induction ts with
  | nil => intro off len sp' h; simp [sliceSpans] at h
  | cons sp rest ih =>
    intro off len sp' h c hc1 hc2
    unfold sliceSpans at h
    split at h
    · simp at h
    · split at h
      · rename_i h0 hskip
        rcases ih (off - sp.len) len sp' h c hc1 hc2 with ⟨k, hk, hat⟩
        refine ⟨k, hk, ?_⟩
        unfold targetIdAt
        rw [if_neg (by omega)]
        have : off + k - sp.len = off - sp.len + k := by omega
        rw [this]
        exact hat
      · rename_i h0 hskip
        rcases List.mem_cons.mp h with rfl | h
        · simp only at hc1 hc2
          refine ⟨c - sp.start - off, by omega, ?_⟩
          unfold targetIdAt
          rw [if_pos (by omega)]
          have : sp.start + (off + (c - sp.start - off)) = c := by omega
          rw [this]
        · rcases ih 0 (len - min (sp.len - off) len) sp' h c hc1 hc2 with
            ⟨k, hk, hat⟩
          refine ⟨min (sp.len - off) len + k, by omega, ?_⟩
          unfold targetIdAt
          rw [if_neg (by omega)]
          have : off + (min (sp.len - off) len + k) - sp.len = k := by
            simp only [IdSpan.len] at hskip hk ⊢
            omega
          rw [this]
          simpa using hat

/-- What a successful insertion-cursor resolution guarantees: the resolved
counter lies in the queried span, the run is nonempty, stays inside the
span, and starts at an element with the resolved id whose status the whole
run shares. -/
theorem mkDel_not_ins {t : Tracker} {sp : IdSpan} {dm id p clen : Nat} :
    mkDel t sp dm ≠ some (.ins id p clen) := by
  intro h
  unfold mkDel at h
  split at h
  · cases h
  · simp at h

theorem first_cursor_ins_spec {t : Tracker} {sp : IdSpan} {id p clen : Nat}
    (h : get_first_cursors_at_id_span t sp = some (.ins id p clen)) :
    sp.start ≤ id ∧ id < sp.stop ∧ 1 ≤ clen ∧ id + clen ≤ sp.stop ∧
      ∃ e, t.elems.get? p = some e ∧ e.client = sp.client ∧ e.counter = id ∧
        clen = runLenFrom (t.elems.drop p) sp.client id e.future
          e.deleteTimes sp.stop := by
  have main : ∀ i, listMin? (insCandidates t sp) = some i →
      mkIns t sp i = some (.ins id p clen) →
      sp.start ≤ id ∧ id < sp.stop ∧ 1 ≤ clen ∧ id + clen ≤ sp.stop ∧
        ∃ e, t.elems.get? p = some e ∧ e.client = sp.client ∧ e.counter = id ∧
          clen = runLenFrom (t.elems.drop p) sp.client id e.future
            e.deleteTimes sp.stop := by
    intro i hmin hmk
    rcases mem_insCandidates (listMin?_mem hmin) with ⟨hi1, hi2, _⟩
    unfold mkIns at hmk
    split at hmk
    · cases hmk
    · rename_i p2 hfp
      split at hmk
      · cases hmk
      · rename_i e hget
        injection hmk with hmk
        injection hmk with e1 e2 e3
        rcases findPos_spec hfp with ⟨e2', hget2, hcl, hctr⟩
        rw [hget] at hget2
        injection hget2 with hget2
        subst hget2
        have hpos : 1 ≤ runLenFrom (t.elems.drop p2) sp.client i e.future
            e.deleteTimes sp.stop := by
          apply runLenFrom_pos (e := e) _ hcl hctr rfl rfl hi2
          rw [List.get?_drop]
          simpa using hget
        have hle := runLenFrom_le_sub (t.elems.drop p2) sp.client i e.future
          e.deleteTimes sp.stop
        refine ⟨e1 ▸ hi1, e1 ▸ hi2, e3 ▸ hpos, by omega, e, e2 ▸ hget, hcl,
          e1 ▸ hctr, ?_⟩
        rw [← e2, ← e1]
        exact e3.symm
  unfold get_first_cursors_at_id_span at h
  split at h
  · cases h
  · rename_i i hins hdel
    exact main i hins h
  · rename_i dm hins hdel
    exact absurd h mkDel_not_ins
  · rename_i i dm hins hdel
    split at h
    · exact main i hins h
    · exact absurd h mkDel_not_ins

theorem mkIns_not_del {t : Tracker} {sp : IdSpan} {i id : Nat}
    {ts' : List IdSpan} : mkIns t sp i ≠ some (.del id ts') := by
  intro h
  unfold mkIns at h
  split at h
  · cases h
  · split at h
    · cases h
    · simp at h

/-- What a successful deletion-cursor resolution guarantees: the resolved
counter lies in the queried span, the clipped target list is nonempty and
its total length keeps the covered range inside the span, and the targets
are the matching slice of an integrated delete operation. -/
theorem first_cursor_del_spec {t : Tracker} {sp : IdSpan} {id : Nat}
    {ts' : List IdSpan}
    (h : get_first_cursors_at_id_span t sp = some (.del id ts')) :
    sp.start ≤ id ∧ 1 ≤ sumLens ts' ∧ id + sumLens ts' ≤ sp.stop ∧
      ∃ d ∈ t.deletes, d.client = sp.client ∧ d.counter ≤ id ∧
        ts' = sliceSpans d.targets (id - d.counter)
          (min (d.counter + d.len) sp.stop - id) := by
  have main : ∀ dm, mkDel t sp dm = some (.del id ts') →
      sp.start ≤ id ∧ 1 ≤ sumLens ts' ∧ id + sumLens ts' ≤ sp.stop ∧
        ∃ d ∈ t.deletes, d.client = sp.client ∧ d.counter ≤ id ∧
          ts' = sliceSpans d.targets (id - d.counter)
            (min (d.counter + d.len) sp.stop - id) := by
    intro dm hmk
    unfold mkDel at hmk
    split at hmk
    · cases hmk
    · rename_i d hfind
      have hd : d ∈ t.deletes := List.mem_of_find?_eq_some hfind
      have hpred := List.find?_some hfind
      simp only [Bool.and_eq_true, beq_iff_eq, decide_eq_true_eq] at hpred
      obtain ⟨⟨hdcl, hlt⟩, hdm⟩ := hpred
      injection hmk with hmk
      injection hmk with e1 e2
      have hsum : sumLens ts' =
          min (d.counter + d.len) sp.stop - id := by
        rw [← e2, sliceSpans_sum]
        have : sumLens d.targets = d.len := rfl
        rw [this]
        omega
      refine ⟨by omega, by omega, by omega, d, hd, hdcl, by omega, ?_⟩
      rw [← e2, ← e1]
  unfold get_first_cursors_at_id_span at h
  split at h
  · cases h
  · exact absurd h mkIns_not_del
  · rename_i dm hins hdel
    exact main dm h
  · rename_i i dm hins hdel
    split at h
    · exact absurd h mkIns_not_del
    · exact main dm h

/-! ### Lemmas about status updates -/

theorem updateElems_length : ∀ (l : List Elem) (p len : Nat)
    (ch : StatusChange), (updateElems l p len ch).length = l.length := by
  intro l
  induction l with
  | nil => intro p len ch; simp [updateElems]
  | cons e rest ih =>
    intro p len ch
    match p, len with
    | p + 1, len => simp [updateElems, ih]
    | 0, len + 1 => simp [updateElems, ih]
    | 0, 0 => rfl

theorem updateElems_get? : ∀ (l : List Elem) (p len : Nat)
    (ch : StatusChange) (i : Nat),
    (updateElems l p len ch).get? i =
      if p ≤ i ∧ i < p + len then (l.get? i).map (applyChange · ch)
      else l.get? i := by
  intro l
  induction l with
  | nil => intro p len ch i; simp [updateElems]
  | cons e rest ih =>
    intro p len ch i
    match p, len with
    | p + 1, len =>
      cases i with
      | zero => simp [updateElems]
      | succ j =>
        show (updateElems rest p len ch).get? j = _
        rw [ih p len ch j]
        by_cases hc : p ≤ j ∧ j < p + len
        · rw [if_pos hc, if_pos (by omega)]
          rfl
        · rw [if_neg hc, if_neg (by omega)]
          rfl
    | 0, len + 1 =>
      cases i with
      | zero => simp [updateElems]
      | succ j =>
        show (updateElems rest 0 len ch).get? j = _
        rw [ih 0 len ch j]
        by_cases hc : j < len
        · rw [if_pos (by omega), if_pos (by omega)]
          rfl
        · rw [if_neg (by omega), if_neg (by omega)]
          rfl
    | 0, 0 =>
      rw [if_neg (by omega)]
      rfl

theorem countVisible_cons (e : Elem) (l : List Elem) :
    countVisible (e :: l) = e.visible.toNat + countVisible l := by
  unfold countVisible
  rw [List.filter_cons]
  cases hv : e.visible <;> simp [hv, Nat.add_comm]

theorem deltaElems_total : ∀ (l : List Elem) (p len : Nat)
    (ch : StatusChange),
    (countVisible (updateElems l p len ch) : Int) =
      (countVisible l : Int) + deltaElems l p len ch := by
  intro l
  induction l with
  | nil => intro p len ch; simp [updateElems, deltaElems]
  | cons e rest ih =>
    intro p len ch
    match p, len with
    | p + 1, len =>
      show (countVisible (e :: updateElems rest p len ch) : Int) = _
      rw [countVisible_cons, countVisible_cons]
      have := ih p len ch
      push_cast
      push_cast at this
      simp only [deltaElems]
      omega
    | 0, len + 1 =>
      show (countVisible (applyChange e ch :: updateElems rest 0 len ch) : Int) = _
      rw [countVisible_cons, countVisible_cons]
      have := ih 0 len ch
      push_cast
      push_cast at this
      simp only [deltaElems]
      push_cast
      omega
    | 0, 0 =>
      show (countVisible (e :: rest) : Int) = (countVisible (e :: rest) : Int) + 0
      omega

/-! ### Forward progress and termination of the pass -/

theorem step_rank_lt : ∀ {s s' : IterState} {e : Option Effect},
    step s = .cont s' e → rank s' < rank s := by
  intro s s' e h
  obtain ⟨t, left, cur, delT⟩ := s
  cases delT with
  | cons dt rest =>
    cases hf : get_first_cursors_at_id_span t dt with
    | none =>
      simp only [step, hf] at h
      cases h
    | some fc =>
      cases fc with
      | del id ts2 =>
        simp only [step, hf] at h
        cases h
      | ins id p clen =>
        rcases first_cursor_ins_spec hf with ⟨h1, h2, h3, h4, -⟩
        simp only [step, hf] at h
        split at h
        · rename_i hid
          split at h
          · cases h
          · split at h
            · split at h
              · cases h
                simp only [rank, sumLens_cons]
                simp only [IdSpan.len] at *
                split <;> split <;>
                  (try simp only [sumLens_cons, IdSpan.len] at *) <;> omega
              · cases h
            · cases h
              simp only [rank, sumLens_cons]
              simp only [IdSpan.len] at *
              split <;> split <;>
                (try simp only [sumLens_cons, IdSpan.len] at *) <;> omega
        · cases h
  | nil =>
    cases cur with
    | some c =>
      cases hf : get_first_cursors_at_id_span t c with
      | none =>
        simp only [step, hf] at h
        cases h
        simp only [rank, sumLens_nil]
        simp only [IdSpan.len] at *
        omega
      | some fc =>
        cases fc with
        | ins id p clen =>
          rcases first_cursor_ins_spec hf with ⟨h1, h2, h3, h4, -⟩
          simp only [step, hf] at h
          split at h
          · rename_i hguard
            split at h
            · split at h
              · cases h
                simp only [rank, sumLens_nil]
                simp only [IdSpan.len] at *
                omega
              · cases h
            · cases h
              simp only [rank, sumLens_nil]
              simp only [IdSpan.len] at *
              omega
          · cases h
        | del id dtargets =>
          rcases first_cursor_del_spec hf with ⟨h1, h2, h3, -⟩
          simp only [step, hf] at h
          split at h
          · rename_i hguard
            cases h
            simp only [rank, sumLens_reverse, sumLens_nil]
            simp only [IdSpan.len] at *
            omega
          · cases h
    | none =>
      cases hleft : left with
      | nil =>
        subst hleft
        simp only [step] at h
        cases h
      | cons l ls =>
        subst hleft
        simp only [step] at h
        cases h
        simp only [rank, sumLens_cons, sumLens_nil, List.length_cons]
        simp only [IdSpan.len] at *
        omega

/-- Run the effect iterator to completion: the full ordered effect sequence
of the pass and the final store, or `none` if an assertion of the source
fails.  Terminates because every iteration strictly decreases `rank`. -/
def runAux (s : IterState) : Option (List Effect × Tracker) :=
  match h : step s with
  | .fail => none
  | .done => some ([], s.t)
  | .cont s' e =>
    match runAux s' with
    | none => none
    | some (effs, t') => some (e.toList ++ effs, t')
termination_by rank s
decreasing_by exact step_rank_lt h

/-- A full Tracker pass over a target set (the whole `EffectIter` run,
starting as the source's `EffectIter::new`: no current span, no pending
delete targets). -/
def runEffects (t : Tracker) (targets : List IdSpan) :
    Option (List Effect × Tracker) :=
  runAux ⟨t, targets, none, []⟩

theorem runAux_fail {s : IterState} (h : step s = .fail) : runAux s = none := by
  rw [runAux.eq_def]
  split
  · rfl
  · rename_i heq
    rw [h] at heq
    cases heq
  · rename_i s' e heq
    rw [h] at heq
    cases heq

theorem runAux_done {s : IterState} (h : step s = .done) :
    runAux s = some ([], s.t) := by
  rw [runAux.eq_def]
  split
  · rename_i heq
    rw [h] at heq
    cases heq
  · rfl
  · rename_i s' e heq
    rw [h] at heq
    cases heq

theorem runAux_cont {s s' : IterState} {e : Option Effect}
    (h : step s = .cont s' e) :
    runAux s = (runAux s').map (fun r => (e.toList ++ r.1, r.2)) := by
  rw [runAux.eq_def]
  split
  · rename_i heq
    rw [h] at heq
    cases heq
  · rename_i heq
    rw [h] at heq
    cases heq
  · rename_i s2 e2 heq
    rw [h] at heq
    injection heq with he1 he2
    subst he1
    subst he2
    cases runAux s' with
    | none => rfl
    | some r =>
      obtain ⟨effs, t'⟩ := r
      rfl

/-- C3: termination and forward progress of a Tracker pass: every loop
iteration that continues strictly decreases the termination variant (for
inserts the current span's start advances past the resolved cursor, for
deletes only the strictly shorter remainder is re-pushed), so every pass
over a finite target set terminates; and the pass is in its terminal state
exactly when the outer target stack (remaining spans and current span) and
the inner deletion work list are all empty. -/
theorem effect_pass_terminates :
    (∀ (s s' : IterState) (e : Option Effect),
      step s = .cont s' e → rank s' < rank s) ∧
    (∀ s : IterState, step s = .done ↔
      s.left = [] ∧ s.cur = none ∧ s.delT = []) := by
  constructor
  · intro s s' e h
    exact step_rank_lt h
  · intro s
    constructor
    · intro h
      obtain ⟨t, left, cur, delT⟩ := s
      cases delT with
      | cons dt rest =>
        unfold step at h
        simp only at h
        split at h <;> try cases h
        split at h <;> try cases h
        split at h <;> try cases h
        split at h <;> try cases h
        split at h <;> cases h
      | nil =>
        cases cur with
        | some c =>
          unfold step at h
          simp only at h
          split at h <;> try cases h
          · split at h <;> try cases h
            split at h <;> try cases h
            split at h <;> cases h
          · split at h <;> cases h
        | none =>
          cases left with
          | nil => exact ⟨rfl, rfl, rfl⟩
          | cons l ls => simp only [step] at h; cases h
    · rintro ⟨h1, h2, h3⟩
      obtain ⟨t, left, cur, delT⟩ := s
      simp only at h1 h2 h3
      subst h1
      subst h2
      subst h3
      rfl

theorem effect_pass_terminates_witness :
    step ⟨⟨[⟨1, 0, true, 0⟩], []⟩, [], some ⟨1, 0, 1⟩, []⟩ =
        .cont ⟨⟨[⟨1, 0, false, 0⟩], []⟩, [], some ⟨1, 1, 1⟩, []⟩
          (some (.ins 0 ⟨1, 0, 1⟩)) ∧
      rank ⟨⟨[⟨1, 0, false, 0⟩], []⟩, [], some ⟨1, 1, 1⟩, []⟩ <
        rank ⟨⟨[⟨1, 0, true, 0⟩], []⟩, [], some ⟨1, 0, 1⟩, []⟩ ∧
      step ⟨⟨[⟨1, 0, true, 0⟩], []⟩, [], none, []⟩ = .done := by
  refine ⟨by decide, ?_, ?_⟩
  · exact effect_pass_terminates.1
      ⟨⟨[⟨1, 0, true, 0⟩], []⟩, [], some ⟨1, 0, 1⟩, []⟩
      ⟨⟨[⟨1, 0, false, 0⟩], []⟩, [], some ⟨1, 1, 1⟩, []⟩
      (some (.ins 0 ⟨1, 0, 1⟩)) (by decide)
  · exact (effect_pass_terminates.2 _).mpr ⟨rfl, rfl, rfl⟩

/-! ### Effect emission and the visible length -/

theorem update_cursors_total (t : Tracker) (p len : Nat) (ch : StatusChange) :
    (Tracker.totalVisible (update_cursors t p len ch).1 : Int) =
      (t.totalVisible : Int) + (update_cursors t p len ch).2 := by
  unfold update_cursors Tracker.totalVisible
  exact deltaElems_total t.elems p len ch

/-- A `Del` effect is emitted only when the covered content was visible and
becomes invisible: the pass's visible length drops by exactly the effect's
length, which is positive. -/
theorem step_del_emits : ∀ {s s' : IterState} {pos len : Nat},
    step s = .cont s' (some (.del pos len)) →
    0 < len ∧ (s'.t.totalVisible : Int) = (s.t.totalVisible : Int) - len := by
  intro s s' pos len h
  obtain ⟨t, left, cur, delT⟩ := s
  cases delT with
  | cons dt rest =>
    cases hf : get_first_cursors_at_id_span t dt with
    | none => simp only [step, hf] at h; cases h
    | some fc =>
      cases fc with
      | del id ts2 => simp only [step, hf] at h; cases h
      | ins id p clen =>
        rcases first_cursor_ins_spec hf with ⟨h1, h2, h3, h4, -⟩
        simp only [step, hf] at h
        split at h
        · split at h
          · cases h
          · split at h
            · split at h
              · rename_i hpos heq
                cases h
                have htot := update_cursors_total t p len .delete
                constructor
                · exact h3
                · simp only at htot ⊢
                  omega
              · cases h
            · cases h
        · cases h
  | nil =>
    cases cur with
    | some c =>
      cases hf : get_first_cursors_at_id_span t c with
      | none => simp only [step, hf] at h; cases h
      | some fc =>
        cases fc with
        | ins id p clen =>
          simp only [step, hf] at h
          split at h
          · split at h
            · split at h
              · cases h
              · cases h
            · cases h
          · cases h
        | del id dtargets =>
          simp only [step, hf] at h
          split at h
          · cases h
          · cases h
    | none =>
      cases left with
      | nil => simp only [step] at h; cases h
      | cons l ls => simp only [step] at h; cases h

/-- An `Ins` effect is emitted only when applying `SetAsCurrent` yields a
strictly positive visibility delta: the pass's visible length grows by
exactly the emitted content's length, which is positive. -/
theorem step_ins_emits : ∀ {s s' : IterState} {pos : Nat} {content : IdSpan},
    step s = .cont s' (some (.ins pos content)) →
    0 < content.len ∧
      (s'.t.totalVisible : Int) = (s.t.totalVisible : Int) + content.len := by
  intro s s' pos content h
  obtain ⟨t, left, cur, delT⟩ := s
  cases delT with
  | cons dt rest =>
    cases hf : get_first_cursors_at_id_span t dt with
    | none => simp only [step, hf] at h; cases h
    | some fc =>
      cases fc with
      | del id ts2 => simp only [step, hf] at h; cases h
      | ins id p clen =>
        simp only [step, hf] at h
        split at h
        · split at h
          · cases h
          · split at h
            · split at h
              · cases h
              · cases h
            · cases h
        · cases h
  | nil =>
    cases cur with
    | some c =>
      cases hf : get_first_cursors_at_id_span t c with
      | none => simp only [step, hf] at h; cases h
      | some fc =>
        cases fc with
        | ins id p clen =>
          rcases first_cursor_ins_spec hf with ⟨h1, h2, h3, h4, -⟩
          simp only [step, hf] at h
          split at h
          · split at h
            · split at h
              · rename_i hpos heq
                cases h
                have htot := update_cursors_total t p clen .setAsCurrent
                constructor
                · simp only [IdSpan.len]
                  omega
                · simp only [IdSpan.len] at htot ⊢
                  omega
              · cases h
            · cases h
          · cases h
        | del id dtargets =>
          simp only [step, hf] at h
          split at h
          · cases h
          · cases h
    | none =>
      cases left with
      | nil => simp only [step] at h; cases h
      | cons l ls => simp only [step] at h; cases h

/-- Fuelled evaluator for the pass, used to compute concrete runs; it agrees
with `runAux` whenever the fuel exceeds the termination variant. -/
def runFuel : Nat → IterState → Option (List Effect × Tracker)
  | 0, _ => none
  | n + 1, s =>
    match step s with
    | .fail => none
    | .done => some ([], s.t)
    | .cont s' e =>
      match runFuel n s' with
      | none => none
      | some (effs, t') => some (e.toList ++ effs, t')

theorem runFuel_eq_runAux : ∀ (n : Nat) (s : IterState), rank s < n →
    runFuel n s = runAux s := by
  intro n
  induction n with
  | zero => intro s h; omega
  | succ m ih =>
    intro s h
    cases hstep : step s with
    | fail =>
      rw [runAux_fail hstep]
      simp [runFuel, hstep]
    | done =>
      rw [runAux_done hstep]
      simp [runFuel, hstep]
    | cont s' e =>
      rw [runAux_cont hstep]
      have hlt := step_rank_lt hstep
      have hunf : runFuel (m + 1) s =
          match runFuel m s' with
          | none => none
          | some (effs, t') => some (e.toList ++ effs, t') := by
        conv_lhs => rw [runFuel]
        rw [hstep]
      rw [hunf, ih s' (by omega)]
      cases runAux s' with
      | none => rfl
      | some r => obtain ⟨effs, t'⟩ := r; rfl

/-- Scenario B store: "hello" (ids c1:0–4) integrated and visible, plus two
concurrently issued delete operations (from clients 2 and 3) both targeting
the "ll" ids c1:2–3. -/
def helloTracker : Tracker :=
  ⟨[⟨1, 0, false, 0⟩, ⟨1, 1, false, 0⟩, ⟨1, 2, false, 0⟩, ⟨1, 3, false, 0⟩,
      ⟨1, 4, false, 0⟩],
    [⟨2, 0, [⟨1, 2, 4⟩]⟩, ⟨3, 0, [⟨1, 2, 4⟩]⟩]⟩

/-- Scenario B store after one delete integrated ("ll" Deleted-once). -/
def helloAfterOne : Tracker :=
  ⟨[⟨1, 0, false, 0⟩, ⟨1, 1, false, 0⟩, ⟨1, 2, false, 1⟩, ⟨1, 3, false, 1⟩,
      ⟨1, 4, false, 0⟩],
    [⟨2, 0, [⟨1, 2, 4⟩]⟩, ⟨3, 0, [⟨1, 2, 4⟩]⟩]⟩

/-- Scenario B store after both deletes integrated ("ll" Deleted-twice). -/
def helloAfterTwo : Tracker :=
  ⟨[⟨1, 0, false, 0⟩, ⟨1, 1, false, 0⟩, ⟨1, 2, false, 2⟩, ⟨1, 3, false, 2⟩,
      ⟨1, 4, false, 0⟩],
    [⟨2, 0, [⟨1, 2, 4⟩]⟩, ⟨3, 0, [⟨1, 2, 4⟩]⟩]⟩

/-- C2: a `Del` effect is emitted iff the delete makes visible content
invisible (the visible length strictly drops, by exactly the emitted
length); in Scenario B the first delete's integration emits exactly
`Del{position 2, length 2}`, the second delete's integration emits zero
effects and only raises the status to Deleted-twice, and a combined pass in
either order emits exactly the one `Del{2,2}`. -/
theorem delete_effect_iff_visible_drop :
    (∀ (s s' : IterState) (pos len : Nat),
      step s = .cont s' (some (.del pos len)) →
      0 < len ∧ (s'.t.totalVisible : Int) = (s.t.totalVisible : Int) - len) ∧
    runEffects helloTracker [⟨2, 0, 2⟩] = some ([.del 2 2], helloAfterOne) ∧
    runEffects helloAfterOne [⟨3, 0, 2⟩] = some ([], helloAfterTwo) ∧
    runEffects helloTracker [⟨3, 0, 2⟩, ⟨2, 0, 2⟩] =
      some ([.del 2 2], helloAfterTwo) ∧
    runEffects helloTracker [⟨2, 0, 2⟩, ⟨3, 0, 2⟩] =
      some ([.del 2 2], helloAfterTwo) := by
  refine ⟨fun s s' pos len h => step_del_emits h, ?_, ?_, ?_, ?_⟩ <;>
    (unfold runEffects; rw [← runFuel_eq_runAux 100 _ (by decide)]; decide)

theorem delete_effect_iff_visible_drop_witness :
    step ⟨helloTracker, [], some ⟨2, 2, 2⟩, [⟨1, 2, 4⟩]⟩ =
        .cont ⟨helloAfterOne, [], some ⟨2, 2, 2⟩, []⟩ (some (.del 2 2)) ∧
      0 < 2 ∧
      ((helloAfterOne : Tracker).totalVisible : Int) =
        ((helloTracker : Tracker).totalVisible : Int) - 2 := by
  refine ⟨by decide, ?_⟩
  exact delete_effect_iff_visible_drop.1
    ⟨helloTracker, [], some ⟨2, 2, 2⟩, [⟨1, 2, 4⟩]⟩
    ⟨helloAfterOne, [], some ⟨2, 2, 2⟩, []⟩ 2 2 (by decide)

/-! ### Well-formed stores and assertion safety -/

/-- The id `(cl, c)` is backed by a content element of the store. -/
def idBacked (t : Tracker) (cl c : Nat) : Prop :=
  ∃ e ∈ t.elems, e.client = cl ∧ e.counter = c

/-- Every id of a span is backed by a content element. -/
def spanBacked (t : Tracker) (sp : IdSpan) : Prop :=
  ∀ k, k < sp.len → idBacked t sp.client (sp.start + k)

/-- Well-formed delete index (spec §4.2: the caller guarantees parents are
integrated first, so every id a delete targets has been integrated). -/
def WFdel (t : Tracker) : Prop :=
  ∀ d ∈ t.deletes, ∀ sp ∈ d.targets, spanBacked t sp

/-- Pass invariant: the store's delete index is well formed and every
pending delete target is a nonempty backed span. -/
def InvDel (s : IterState) : Prop :=
  WFdel s.t ∧ ∀ sp ∈ s.delT, spanBacked s.t sp ∧ sp.start < sp.stop

theorem applyChange_client (e : Elem) (ch : StatusChange) :
    (applyChange e ch).client = e.client := by cases ch <;> rfl

theorem applyChange_counter (e : Elem) (ch : StatusChange) :
    (applyChange e ch).counter = e.counter := by cases ch <;> rfl

theorem applyChange_current (e : Elem) (h : e.future = false) :
    applyChange e .setAsCurrent = e := by
  obtain ⟨cl, c, fut, dt⟩ := e
  simp only at h
  subst h
  rfl

theorem update_cursors_deletes (t : Tracker) (p len : Nat)
    (ch : StatusChange) : ((update_cursors t p len ch).1).deletes = t.deletes :=
  rfl

theorem idBacked_update (t : Tracker) (p len : Nat) (ch : StatusChange)
    (cl c : Nat) :
    idBacked ((update_cursors t p len ch).1) cl c ↔ idBacked t cl c := by
  unfold idBacked update_cursors
  simp only
  constructor
  · rintro ⟨e', he', h1, h2⟩
    rcases List.mem_iff_get?.mp he' with ⟨i, hi⟩
    rw [updateElems_get? t.elems p len ch i] at hi
    split at hi
    · rcases Option.map_eq_some'.mp hi with ⟨e, hget, rfl⟩
      exact ⟨e, List.mem_iff_get?.mpr ⟨i, hget⟩,
        by rw [← applyChange_client e ch]; exact h1,
        by rw [← applyChange_counter e ch]; exact h2⟩
    · exact ⟨e', List.mem_iff_get?.mpr ⟨i, hi⟩, h1, h2⟩
  · rintro ⟨e, he, h1, h2⟩
    rcases List.mem_iff_get?.mp he with ⟨i, hi⟩
    by_cases hc : p ≤ i ∧ i < p + len
    · refine ⟨applyChange e ch, List.mem_iff_get?.mpr ⟨i, ?_⟩,
        by rw [applyChange_client]; exact h1,
        by rw [applyChange_counter]; exact h2⟩
      rw [updateElems_get? t.elems p len ch i, if_pos hc, hi]
      rfl
    · refine ⟨e, List.mem_iff_get?.mpr ⟨i, ?_⟩, h1, h2⟩
      rw [updateElems_get? t.elems p len ch i, if_neg hc]
      exact hi

theorem spanBacked_update (t : Tracker) (p len : Nat) (ch : StatusChange)
    (sp : IdSpan) :
    spanBacked ((update_cursors t p len ch).1) sp ↔ spanBacked t sp := by
  unfold spanBacked
  constructor
  · intro h k hk
    exact (idBacked_update t p len ch sp.client (sp.start + k)).mp (h k hk)
  · intro h k hk
    exact (idBacked_update t p len ch sp.client (sp.start + k)).mpr (h k hk)

theorem idBacked_of_spanBacked {t : Tracker} {sp : IdSpan}
    (h : spanBacked t sp) {c : Nat} (h1 : sp.start ≤ c) (h2 : c < sp.stop) :
    idBacked t sp.client c := by
  have hk := h (c - sp.start) (by simp only [IdSpan.len]; omega)
  have : sp.start + (c - sp.start) = c := by omega
  rwa [this] at hk

theorem spanBacked_slice {t : Tracker} {d : DeleteOp}
    (hd : ∀ sp ∈ d.targets, spanBacked t sp) (off len : Nat) :
    ∀ sp' ∈ sliceSpans d.targets off len, spanBacked t sp' := by
  intro sp' hsp' k hk
  rcases sliceSpans_ids d.targets off len sp' hsp' (sp'.start + k)
      (by omega) (by simp only [IdSpan.len] at hk; omega) with
    ⟨sp, hsp, hcl, hb1, hb2⟩
  rw [← hcl]
  exact idBacked_of_spanBacked (hd sp hsp) hb1 hb2

/-- Resolving a nonempty fully backed span always yields the insertion
cursor at the span's start. -/
theorem resolve_backed {t : Tracker} {sp : IdSpan} (hb : spanBacked t sp)
    (hlen : sp.start < sp.stop) :
    ∃ p clen, get_first_cursors_at_id_span t sp =
      some (.ins sp.start p clen) := by
  obtain ⟨e, he, hcl, hctr⟩ := hb 0 (by simp only [IdSpan.len]; omega)
  rw [Nat.add_zero] at hctr
  have hc : sp.start ∈ insCandidates t sp :=
    hctr ▸ insCandidates_of_elem he hcl (hctr ▸ le_refl sp.start)
      (hctr ▸ hlen)
  obtain ⟨m, hm⟩ := listMin?_isSome (List.ne_nil_of_mem hc)
  have hm1 : m ≤ sp.start := listMin?_le hm _ hc
  have hm2 : sp.start ≤ m := (mem_insCandidates (listMin?_mem hm)).1
  have hmeq : m = sp.start := le_antisymm hm1 hm2
  subst hmeq
  obtain ⟨p, hp⟩ := findPos_isSome he hcl hctr
  obtain ⟨e2, hget, -, -⟩ := findPos_spec hp
  have hmk : mkIns t sp sp.start = some (.ins sp.start p
      (runLenFrom (t.elems.drop p) sp.client sp.start e2.future
        e2.deleteTimes sp.stop)) := by
    unfold mkIns
    rw [hp]
    show (match t.elems.get? p with
      | none => none
      | some e => some (FirstCursorResult.ins sp.start p
          (runLenFrom (t.elems.drop p) sp.client sp.start e.future
            e.deleteTimes sp.stop))) = _
    rw [hget]
  unfold get_first_cursors_at_id_span
  rw [hm]
  cases hdel : listMin? (delCandidates t sp) with
  | none =>
    refine ⟨p, runLenFrom (t.elems.drop p) sp.client sp.start e2.future
      e2.deleteTimes sp.stop, ?_⟩
    show mkIns t sp sp.start = _
    exact hmk
  | some dm =>
    have hged : sp.start ≤ dm := mem_delCandidates (listMin?_mem hdel)
    refine ⟨p, runLenFrom (t.elems.drop p) sp.client sp.start e2.future
      e2.deleteTimes sp.stop, ?_⟩
    show (if sp.start ≤ dm then mkIns t sp sp.start else mkDel t sp dm) = _
    rw [if_pos hged]
    exact hmk

/-- The visibility delta of a status change over a uniform run: each of the
`len` covered elements contributes the same per-element delta, determined by
the shared status `(fut, dt)`. -/
theorem deltaElems_run : ∀ (l : List Elem) (p len : Nat) (fut : Bool)
    (dt : Nat) (ch : StatusChange),
    (∀ k, k < len → ∃ e, l.get? (p + k) = some e ∧ e.future = fut ∧
      e.deleteTimes = dt) →
    deltaElems l p len ch =
      (len : Int) * (((applyChange ⟨0, 0, fut, dt⟩ ch).visible.toNat : Int) -
        ((Elem.mk 0 0 fut dt).visible.toNat : Int)) := by
  intro l
  induction l with
  | nil =>
    intro p len fut dt ch hrun
    cases len with
    | zero => simp [deltaElems]
    | succ m =>
      rcases hrun 0 (by omega) with ⟨e, hget, -⟩
      simp at hget
  | cons e rest ih =>
    intro p len fut dt ch hrun
    match p, len with
    | p + 1, len =>
      show deltaElems rest p len ch = _
      apply ih p len fut dt ch
      intro k hk
      have h2 := hrun k hk
      have h1 : p + 1 + k = (p + k) + 1 := by omega
      rw [h1] at h2
      simpa using h2
    | 0, len + 1 =>
      show ((applyChange e ch).visible.toNat : Int) -
          (e.visible.toNat : Int) + deltaElems rest 0 len ch = _
      rcases hrun 0 (by omega) with ⟨e0, hget, hfut, hdt⟩
      have he0 : e0 = e := by simpa using hget.symm
      subst he0
      have hvis : e0.visible = (Elem.mk 0 0 fut dt).visible := by
        simp [Elem.visible, hfut, hdt]
      have hvis2 : (applyChange e0 ch).visible =
          (applyChange ⟨0, 0, fut, dt⟩ ch).visible := by
        cases ch <;> simp [applyChange, Elem.visible, hfut, hdt]
      rw [hvis, hvis2, ih 0 len fut dt ch (fun k hk => by
        have := hrun (k + 1) (by omega)
        simpa using this)]
      push_cast
      ring
    | 0, 0 =>
      show (0 : Int) = _
      simp

/-- Per-element visibility deltas of the two status changes the pass uses:
`Delete` always makes the run invisible (delta `0` or `-len`), and
`SetAsCurrent` always makes it visible (delta `0` or `+len`). -/
theorem deltaElems_run_delete {l : List Elem} {p len : Nat} {fut : Bool}
    {dt : Nat}
    (hrun : ∀ k, k < len → ∃ e, l.get? (p + k) = some e ∧ e.future = fut ∧
      e.deleteTimes = dt) :
    deltaElems l p len .delete = 0 ∨
      deltaElems l p len .delete = -(len : Int) := by
  rw [deltaElems_run l p len fut dt .delete hrun]
  cases fut <;> cases dt <;>
    simp [applyChange, Elem.visible]

theorem deltaElems_run_set {l : List Elem} {p len : Nat} {fut : Bool}
    {dt : Nat}
    (hrun : ∀ k, k < len → ∃ e, l.get? (p + k) = some e ∧ e.future = fut ∧
      e.deleteTimes = dt) :
    deltaElems l p len .setAsCurrent = 0 ∨
      deltaElems l p len .setAsCurrent = (len : Int) := by
  rw [deltaElems_run l p len fut dt .setAsCurrent hrun]
  cases fut <;> cases dt <;>
    simp [applyChange, Elem.visible]

/-- The uniform run delivered by a resolved insertion cursor, in the form
`deltaElems_run` consumes. -/
theorem run_of_ins_cursor {t : Tracker} {sp : IdSpan} {id p clen : Nat}
    (h : get_first_cursors_at_id_span t sp = some (.ins id p clen)) :
    ∃ (fut : Bool) (dt : Nat), ∀ k, k < clen →
      ∃ e, t.elems.get? (p + k) = some e ∧ e.future = fut ∧
        e.deleteTimes = dt := by
  rcases first_cursor_ins_spec h with ⟨-, -, -, -, e, hget, -, -, hlen⟩
  refine ⟨e.future, e.deleteTimes, fun k hk => ?_⟩
  rcases runLenFrom_spec (t.elems.drop p) sp.client id e.future e.deleteTimes
      sp.stop k (hlen ▸ hk) with ⟨e2, hget2, -, -, h3, h4, -⟩
  rw [List.get?_drop] at hget2
  exact ⟨e2, hget2, h3, h4⟩

theorem spanBacked_sub {t : Tracker} {sp : IdSpan} (h : spanBacked t sp)
    (sp' : IdSpan) (hcl : sp'.client = sp.client) (h1 : sp.start ≤ sp'.start)
    (h2 : sp'.stop ≤ sp.stop) : spanBacked t sp' := by
  intro k hk
  simp only [IdSpan.len] at hk
  rw [hcl]
  exact idBacked_of_spanBacked h (by omega) (by omega)

/-- Under the pass invariant no iteration of the loop fails: every cursor
resolved contains the id it claims to resolve and every visibility delta
stays within the cursor's length. -/
theorem step_no_fail {s : IterState} (hinv : InvDel s) : step s ≠ .fail := by
  intro h
  obtain ⟨t, left, cur, delT⟩ := s
  obtain ⟨hwf, hdt⟩ := hinv
  cases delT with
  | cons dt rest =>
    obtain ⟨hsb, hlen⟩ := hdt dt (List.mem_cons_self dt rest)
    obtain ⟨p, clen, hf⟩ := resolve_backed hsb hlen
    obtain ⟨fut, dtc, hrun⟩ := run_of_ins_cursor hf
    have h3 := (first_cursor_ins_spec hf).2.2.1
    have hδ := deltaElems_run_delete hrun
    have hdel2 : (update_cursors t p clen .delete).2 =
        deltaElems t.elems p clen .delete := rfl
    simp only [step, hf] at h
    simp only [if_true] at h
    rcases hδ with h0 | hneg
    · rw [hdel2, h0] at h
      norm_num at h
      cases h
    · rw [hdel2, hneg] at h
      rw [if_neg (by omega), if_pos (by omega), if_pos (by omega)] at h
      cases h
  | nil =>
    cases cur with
    | some c =>
      cases hf : get_first_cursors_at_id_span t c with
      | none => simp only [step, hf] at h; cases h
      | some fc =>
        cases fc with
        | ins id p clen =>
          rcases first_cursor_ins_spec hf with ⟨h1, h2, h3, h4, -⟩
          obtain ⟨fut, dtc, hrun⟩ := run_of_ins_cursor hf
          have hδ := deltaElems_run_set hrun
          have hset2 : (update_cursors t p clen .setAsCurrent).2 =
              deltaElems t.elems p clen .setAsCurrent := rfl
          simp only [step, hf] at h
          rw [if_pos ⟨h1, h2, by omega, by omega⟩] at h
          rcases hδ with h0 | hpos
          · rw [hset2, h0] at h
            norm_num at h
            cases h
          · rw [hset2, hpos] at h
            rw [if_pos (by omega), if_pos (by omega)] at h
            cases h
        | del id dtargets =>
          rcases first_cursor_del_spec hf with ⟨h1, h2, h3, -⟩
          simp only [step, hf] at h
          rw [if_pos ⟨h1, by omega, by omega, by omega⟩] at h
          cases h
    | none =>
      cases left with
      | nil => simp only [step] at h; cases h
      | cons l ls => simp only [step] at h; cases h

/-- The pass invariant is preserved by every continuing iteration. -/
theorem step_InvDel : ∀ {s s' : IterState} {e : Option Effect},
    step s = .cont s' e → InvDel s → InvDel s' := by
  intro s s' e h hinv
  obtain ⟨t, left, cur, delT⟩ := s
  obtain ⟨hwf, hdt⟩ := hinv
  cases delT with
  | cons dt rest =>
    cases hf : get_first_cursors_at_id_span t dt with
    | none => simp only [step, hf] at h; cases h
    | some fc =>
      cases fc with
      | del id ts2 => simp only [step, hf] at h; cases h
      | ins id p clen =>
        have hupdWF : ∀ (q ln : Nat) (ch : StatusChange) (rest2 : List IdSpan),
            (∀ sp ∈ rest2, spanBacked t sp ∧ sp.start < sp.stop) →
            InvDel ⟨(update_cursors t q ln ch).1, left, cur, rest2⟩ := by
          intro q ln ch rest2 hr
          refine ⟨?_, ?_⟩
          · intro d hd sp hsp
            rw [update_cursors_deletes] at hd
            exact (spanBacked_update t q ln ch sp).mpr (hwf d hd sp hsp)
          · intro sp hsp
            exact ⟨(spanBacked_update t q ln ch sp).mpr (hr sp hsp).1,
              (hr sp hsp).2⟩
        have hrest2 : ∀ (cond : Prop) [Decidable cond], ∀ sp ∈
            (if cond ∧ 0 < dt.stop - (id + clen)
             then (⟨dt.client, id + clen, dt.stop⟩ : IdSpan) :: rest
             else rest), spanBacked t sp ∧ sp.start < sp.stop := by
          intro cond _ sp hsp
          obtain ⟨hsb, hlen⟩ := hdt dt (List.mem_cons_self dt rest)
          rcases first_cursor_ins_spec hf with ⟨hb1, hb2, hb3, hb4, -⟩
          split at hsp
          · rename_i hcond
            rcases List.mem_cons.mp hsp with rfl | hsp
            · refine ⟨spanBacked_sub hsb _ rfl
                (by show dt.start ≤ id + clen; omega)
                (by show dt.stop ≤ dt.stop; omega), ?_⟩
              show id + clen < dt.stop
              omega
            · exact ⟨(hdt sp (List.mem_cons_of_mem dt hsp)).1,
                (hdt sp (List.mem_cons_of_mem dt hsp)).2⟩
          · exact ⟨(hdt sp (List.mem_cons_of_mem dt hsp)).1,
              (hdt sp (List.mem_cons_of_mem dt hsp)).2⟩
        simp only [step, hf] at h
        split at h
        · split at h
          · cases h
          · split at h
            · split at h
              · cases h
                exact hupdWF p clen .delete _ (hrest2 _)
              · cases h
            · cases h
              exact hupdWF p clen .delete _ (hrest2 _)
        · cases h
  | nil =>
    cases cur with
    | some c =>
      cases hf : get_first_cursors_at_id_span t c with
      | none =>
        simp only [step, hf] at h
        cases h
        exact ⟨hwf, fun sp hsp => absurd hsp (List.not_mem_nil sp)⟩
      | some fc =>
        cases fc with
        | ins id p clen =>
          simp only [step, hf] at h
          split at h
          · split at h
            · split at h
              · cases h
                refine ⟨?_, fun sp hsp => absurd hsp (List.not_mem_nil sp)⟩
                intro d hd sp hsp
                rw [update_cursors_deletes] at hd
                exact (spanBacked_update t p clen .setAsCurrent sp).mpr
                  (hwf d hd sp hsp)
              · cases h
            · cases h
              refine ⟨?_, fun sp hsp => absurd hsp (List.not_mem_nil sp)⟩
              intro d hd sp hsp
              rw [update_cursors_deletes] at hd
              exact (spanBacked_update t p clen .setAsCurrent sp).mpr
                (hwf d hd sp hsp)
          · cases h
        | del id dtargets =>
          rcases first_cursor_del_spec hf with ⟨h1, h2, h3, d, hd, hdcl, hdc, hslice⟩
          simp only [step, hf] at h
          split at h
          · cases h
            refine ⟨hwf, ?_⟩
            intro sp hsp
            rw [List.mem_reverse] at hsp
            rw [hslice] at hsp
            exact ⟨spanBacked_slice (hwf d hd) _ _ sp hsp,
              sliceSpans_pos _ _ _ sp hsp⟩
          · cases h
    | none =>
      cases left with
      | nil => simp only [step] at h; cases h
      | cons l ls =>
        simp only [step] at h
        cases h
        exact ⟨hwf, fun sp hsp => absurd hsp (List.not_mem_nil sp)⟩

theorem runAux_no_fail : ∀ (s : IterState), InvDel s →
    ∃ r, runAux s = some r := by
  intro s hinv
  cases hstep : step s with
  | fail => exact absurd hstep (step_no_fail hinv)
  | done => exact ⟨([], s.t), runAux_done hstep⟩
  | cont s' e =>
    obtain ⟨r, hr⟩ := runAux_no_fail s' (step_InvDel hstep hinv)
    rw [runAux_cont hstep, hr]
    exact ⟨(e.toList ++ r.1, r.2), rfl⟩
termination_by s => rank s
decreasing_by exact step_rank_lt hstep

instance (t : Tracker) (cl c : Nat) : Decidable (idBacked t cl c) := by
  unfold idBacked
  infer_instance

instance (t : Tracker) (sp : IdSpan) : Decidable (spanBacked t sp) := by
  unfold spanBacked
  infer_instance

instance (t : Tracker) : Decidable (WFdel t) := by
  unfold WFdel
  infer_instance

/-- C7: on a well-formed store (every id targeted by an integrated delete is
itself integrated), a full Tracker pass never hits an assertion or `unwrap`
failure: every resolved cursor contains the id it claims to resolve, the
visibility delta never exceeds the cursor's length in either direction, and
the delta equals the cursor length whenever an effect is emitted — the run
always returns a result. -/
theorem tracker_assertions_never_fire :
    ∀ (t : Tracker) (targets : List IdSpan), WFdel t →
      ∃ r, runEffects t targets = some r := by
  intro t targets hwf
  exact runAux_no_fail ⟨t, targets, none, []⟩
    ⟨hwf, fun sp hsp => absurd hsp (List.not_mem_nil sp)⟩

theorem tracker_assertions_never_fire_witness :
    WFdel helloTracker ∧
      ∃ r, runEffects helloTracker [⟨3, 0, 2⟩, ⟨2, 0, 2⟩] = some r :=
  ⟨by decide,
    tracker_assertions_never_fire helloTracker [⟨3, 0, 2⟩, ⟨2, 0, 2⟩]
      (by decide)⟩

/-! ### Idempotence: replaying already-settled spans emits nothing -/

/-- The id `(cl, c)` is covered by one of the spans. -/
def memSpans (l : List IdSpan) (cl c : Nat) : Prop :=
  ∃ sp ∈ l, sp.client = cl ∧ sp.start ≤ c ∧ c < sp.stop

instance (l : List IdSpan) (cl c : Nat) : Decidable (memSpans l cl c) := by
  unfold memSpans
  infer_instance

/-- The spans of the current-span register. -/
def curList : Option IdSpan → List IdSpan
  | some c => [c]
  | none => []

theorem curList_some (c : IdSpan) : curList (some c) = [c] := rfl

theorem curList_none : curList none = [] := rfl

/-- The pass state is settled for its remaining work: every content element
covered by the outer targets is already current, every element targeted by a
pending delete target is already invisible, and every element targeted by
the covered slice of an integrated delete operation is already invisible. -/
def Settled (s : IterState) : Prop :=
  (∀ e ∈ s.t.elems, memSpans (s.left ++ curList s.cur) e.client e.counter →
    e.future = false) ∧
  (∀ sp ∈ s.delT, ∀ e ∈ s.t.elems, sp.client = e.client →
    sp.start ≤ e.counter → e.counter < sp.stop → 1 ≤ e.deleteTimes) ∧
  (∀ d ∈ s.t.deletes, ∀ off, off < d.len →
    memSpans (s.left ++ curList s.cur) d.client (d.counter + off) →
    ∀ e ∈ s.t.elems, targetIdAt d.targets off = some (e.client, e.counter) →
    1 ≤ e.deleteTimes)

theorem applyChange_future_mono (e : Elem) (ch : StatusChange)
    (h : e.future = false) : (applyChange e ch).future = false := by
  cases ch <;> simp [applyChange, h]

theorem applyChange_dt_mono (e : Elem) {ch : StatusChange}
    (hch : ch = .delete ∨ ch = .setAsCurrent) (h : 1 ≤ e.deleteTimes) :
    1 ≤ (applyChange e ch).deleteTimes := by
  rcases hch with rfl | rfl <;> simp [applyChange] <;> omega

/-- Every element of the updated store comes from an element of the old
store with the same id, either unchanged or with the change applied. -/
theorem update_mem_src {t : Tracker} {p len : Nat} {ch : StatusChange} :
    ∀ e' ∈ ((update_cursors t p len ch).1).elems,
      ∃ e ∈ t.elems, e.client = e'.client ∧ e.counter = e'.counter ∧
        (e' = e ∨ e' = applyChange e ch) := by
  intro e' he'
  rcases List.mem_iff_get?.mp he' with ⟨i, hi⟩
  have hi2 : (updateElems t.elems p len ch).get? i = some e' := hi
  rw [updateElems_get? t.elems p len ch i] at hi2
  split at hi2
  · rcases Option.map_eq_some'.mp hi2 with ⟨e, hget, rfl⟩
    exact ⟨e, List.mem_iff_get?.mpr ⟨i, hget⟩, (applyChange_client e ch).symm,
      (applyChange_counter e ch).symm, Or.inr rfl⟩
  · exact ⟨e', List.mem_iff_get?.mpr ⟨i, hi2⟩, rfl, rfl, Or.inl rfl⟩

theorem memSpans_mono {l l' : List IdSpan} (h : ∀ sp ∈ l, sp ∈ l')
    {cl c : Nat} (hm : memSpans l cl c) : memSpans l' cl c := by
  rcases hm with ⟨sp, hsp, h1, h2, h3⟩
  exact ⟨sp, h sp hsp, h1, h2, h3⟩

/-- Shrinking the current span keeps coverage inside the old coverage. -/
theorem memSpans_shrink {l : List IdSpan} {sp sp' : IdSpan}
    (hcl : sp'.client = sp.client) (h1 : sp.start ≤ sp'.start)
    (h2 : sp'.stop ≤ sp.stop) {cl c : Nat}
    (hm : memSpans (l ++ [sp']) cl c) : memSpans (l ++ [sp]) cl c := by
  rcases hm with ⟨sp2, hsp2, hb1, hb2, hb3⟩
  rcases List.mem_append.mp hsp2 with hmem | hmem
  · exact ⟨sp2, List.mem_append.mpr (Or.inl hmem), hb1, hb2, hb3⟩
  · simp at hmem
    subst hmem
    exact ⟨sp, List.mem_append.mpr (Or.inr (by simp)), hcl ▸ hb1,
      by omega, by omega⟩

/-- On a settled state every continuing iteration emits nothing and
preserves settledness: duplicate delivery produces zero effects. -/
theorem step_settled : ∀ {s s' : IterState} {e : Option Effect},
    step s = .cont s' e → InvDel s → Settled s → Settled s' ∧ e = none := by
  intro s s' e h hinv hset
  obtain ⟨t, left, cur, delT⟩ := s
  obtain ⟨hwf, hdtinv⟩ := hinv
  obtain ⟨hS1, hS2, hS3⟩ := hset
  simp only at hS1 hS2 hS3
  cases delT with
  | cons dt rest =>
    obtain ⟨hsb, hlen⟩ := hdtinv dt (List.mem_cons_self dt rest)
    obtain ⟨p, clen, hf⟩ := resolve_backed hsb hlen
    obtain ⟨fut, dtc, hrun⟩ := run_of_ins_cursor hf
    rcases first_cursor_ins_spec hf with
      ⟨hb1, hb2, hb3, hb4, e0, hget0, hcl0, hctr0, -⟩
    obtain ⟨e1, hget1, hfut1, hdt1⟩ := hrun 0 (by omega)
    rw [Nat.add_zero] at hget1
    rw [hget0] at hget1
    injection hget1 with hget1
    subst hget1
    have he0mem : e0 ∈ t.elems := List.mem_iff_get?.mpr ⟨p, hget0⟩
    have hdtc : 1 ≤ dtc := by
      rw [← hdt1]
      exact hS2 dt (List.mem_cons_self dt rest) e0 he0mem hcl0.symm
        (by omega) (by omega)
    have hdelta : deltaElems t.elems p clen .delete = 0 := by
      rw [deltaElems_run t.elems p clen fut dtc .delete hrun]
      have hv1 : (Elem.mk 0 0 fut dtc).visible = false := by
        simp [Elem.visible]
        omega
      have hv2 : (applyChange ⟨0, 0, fut, dtc⟩ .delete).visible = false := by
        simp [applyChange, Elem.visible]
      rw [hv1, hv2]
      simp
    have hdel2 : (update_cursors t p clen .delete).2 =
        deltaElems t.elems p clen .delete := rfl
    simp only [step, hf] at h
    simp only [if_true] at h
    rw [hdel2, hdelta] at h
    norm_num at h
    obtain ⟨rfl, rfl⟩ := h
    refine ⟨⟨?_, ?_, ?_⟩, rfl⟩
    · intro e' he' hm
      obtain ⟨e2, he2, hcl2, hctr2, hstat⟩ := update_mem_src e' he'
      have hfe2 : e2.future = false :=
        hS1 e2 he2 (by rwa [hcl2, hctr2])
      rcases hstat with rfl | rfl
      · exact hfe2
      · exact applyChange_future_mono e2 _ hfe2
    · intro sp hsp e' he' hclsp hsb1 hsb2
      obtain ⟨e2, he2, hcl2, hctr2, hstat⟩ := update_mem_src e' he'
      have hdt2 : 1 ≤ e2.deleteTimes := by
        have hcl2' : sp.client = e2.client := by rw [hcl2, hclsp]
        have hsb1' : sp.start ≤ e2.counter := by rwa [hctr2]
        have hsb2' : e2.counter < sp.stop := by rwa [hctr2]
        revert hsp
        split
        · rename_i hcond
          intro hsp
          rcases List.mem_cons.mp hsp with rfl | hsp
          · simp only at hcl2' hsb1' hsb2'
            exact hS2 dt (List.mem_cons_self dt rest) e2 he2 hcl2'
              (by omega) (by omega)
          · exact hS2 sp (List.mem_cons_of_mem dt hsp) e2 he2 hcl2'
              hsb1' hsb2'
        · intro hsp
          exact hS2 sp (List.mem_cons_of_mem dt hsp) e2 he2 hcl2'
            hsb1' hsb2'
      rcases hstat with rfl | rfl
      · exact hdt2
      · exact applyChange_dt_mono e2 (Or.inl rfl) hdt2
    · intro d hd off hoff hm e' he' hat
      rw [update_cursors_deletes] at hd
      obtain ⟨e2, he2, hcl2, hctr2, hstat⟩ := update_mem_src e' he'
      have hdt2 : 1 ≤ e2.deleteTimes := by
        refine hS3 d hd off hoff hm e2 he2 ?_
        rw [hcl2, hctr2]
        exact hat
      rcases hstat with rfl | rfl
      · exact hdt2
      · exact applyChange_dt_mono e2 (Or.inl rfl) hdt2
  | nil =>
    cases cur with
    | some c =>
      cases hf : get_first_cursors_at_id_span t c with
      | none =>
        simp only [step, hf] at h
        cases h
        have hsub : ∀ sp ∈ left ++ curList none, sp ∈ left ++ curList (some c) := by
          intro sp hsp
          simp [curList] at hsp ⊢
          tauto
        refine ⟨⟨?_, ?_, ?_⟩, rfl⟩
        · intro e' he' hm
          exact hS1 e' he' (memSpans_mono hsub hm)
        · intro sp hsp
          exact absurd hsp (List.not_mem_nil sp)
        · intro d hd off hoff hm e' he' hat
          exact hS3 d hd off hoff (memSpans_mono hsub hm) e' he' hat
      | some fc =>
        cases fc with
        | ins id p clen =>
          rcases first_cursor_ins_spec hf with
            ⟨hb1, hb2, hb3, hb4, e0, hget0, hcl0, hctr0, -⟩
          obtain ⟨fut, dtc, hrun⟩ := run_of_ins_cursor hf
          obtain ⟨e1, hget1, hfut1, hdt1⟩ := hrun 0 (by omega)
          rw [Nat.add_zero] at hget1
          rw [hget0] at hget1
          injection hget1 with hget1
          subst hget1
          have he0mem : e0 ∈ t.elems := List.mem_iff_get?.mpr ⟨p, hget0⟩
          have hfut0 : fut = false := by
            rw [← hfut1]
            refine hS1 e0 he0mem ?_
            refine ⟨c, ?_, hcl0.symm, by omega, by omega⟩
            simp [curList]
          have hdelta : deltaElems t.elems p clen .setAsCurrent = 0 := by
            rw [deltaElems_run t.elems p clen fut dtc .setAsCurrent hrun]
            subst hfut0
            have : applyChange ⟨0, 0, false, dtc⟩ .setAsCurrent =
                ⟨0, 0, false, dtc⟩ := rfl
            rw [this]
            simp
          have hset2 : (update_cursors t p clen .setAsCurrent).2 =
              deltaElems t.elems p clen .setAsCurrent := rfl
          simp only [step, hf] at h
          rw [if_pos ⟨hb1, hb2, by omega, by omega⟩] at h
          rw [hset2, hdelta] at h
          norm_num at h
          obtain ⟨rfl, rfl⟩ := h
          have hshrink : ∀ {cl2 c2 : Nat},
              memSpans (left ++ curList (some ⟨c.client, id + clen, c.stop⟩))
                cl2 c2 →
              memSpans (left ++ curList (some c)) cl2 c2 := by
            intro cl2 c2 hm
            rw [curList_some] at hm
            rw [curList_some]
            exact memSpans_shrink
              (show (⟨c.client, id + clen, c.stop⟩ : IdSpan).client = c.client
                from rfl)
              (by show c.start ≤ id + clen; omega)
              (by show c.stop ≤ c.stop; omega) hm
          refine ⟨⟨?_, ?_, ?_⟩, rfl⟩
          · intro e' he' hm
            obtain ⟨e2, he2, hcl2, hctr2, hstat⟩ := update_mem_src e' he'
            have hfe2 : e2.future = false :=
              hS1 e2 he2 (hshrink (by rwa [hcl2, hctr2]))
            rcases hstat with rfl | rfl
            · exact hfe2
            · exact applyChange_future_mono e2 _ hfe2
          · intro sp hsp
            exact absurd hsp (List.not_mem_nil sp)
          · intro d hd off hoff hm e' he' hat
            rw [update_cursors_deletes] at hd
            obtain ⟨e2, he2, hcl2, hctr2, hstat⟩ := update_mem_src e' he'
            have hdt2 : 1 ≤ e2.deleteTimes := by
              refine hS3 d hd off hoff (hshrink hm) e2 he2 ?_
              rw [hcl2, hctr2]
              exact hat
            rcases hstat with rfl | rfl
            · exact hdt2
            · exact applyChange_dt_mono e2 (Or.inr rfl) hdt2
        | del id dtargets =>
          rcases first_cursor_del_spec hf with
            ⟨hb1, hb2, hb3, d, hd, hdcl, hdc, hslice⟩
          have hsum : sumLens dtargets =
              min (d.counter + d.len) c.stop - id := by
            rw [hslice, sliceSpans_sum]
            have : sumLens d.targets = d.len := rfl
            rw [this]
            omega
          simp only [step, hf] at h
          rw [if_pos ⟨hb1, by omega, by omega, by omega⟩] at h
          cases h
          have hshrink : ∀ {cl2 c2 : Nat},
              memSpans (left ++
                curList (some ⟨c.client, id + sumLens dtargets, c.stop⟩))
                cl2 c2 →
              memSpans (left ++ curList (some c)) cl2 c2 := by
            intro cl2 c2 hm
            rw [curList_some] at hm
            rw [curList_some]
            exact memSpans_shrink
              (show (⟨c.client, id + sumLens dtargets, c.stop⟩ :
                  IdSpan).client = c.client from rfl)
              (by show c.start ≤ id + sumLens dtargets; omega)
              (by show c.stop ≤ c.stop; omega) hm
          refine ⟨⟨?_, ?_, ?_⟩, rfl⟩
          · intro e' he' hm
            exact hS1 e' he' (hshrink hm)
          · intro sp hsp e' he' hclsp hsb1 hsb2
            rw [List.mem_reverse] at hsp
            rw [hslice] at hsp
            rcases sliceSpans_targetIdAt d.targets (id - d.counter)
                (min (d.counter + d.len) c.stop - id) sp hsp e'.counter
                hsb1 hsb2 with ⟨k, hk, hat⟩
            rw [hclsp] at hat
            refine hS3 d hd (id - d.counter + k) (by omega) ?_ e' he' hat
            refine ⟨c, ?_, hdcl.symm, ?_, ?_⟩
            · simp [curList]
            · omega
            · omega
          · intro d2 hd2 off hoff hm e' he' hat
            exact hS3 d2 hd2 off hoff (hshrink hm) e' he' hat
    | none =>
      cases hleft : left with
      | nil =>
        subst hleft
        simp only [step] at h
        cases h
      | cons l ls =>
        subst hleft
        simp only [step] at h
        cases h
        have hsub : ∀ sp ∈ ls ++ curList (some l),
            sp ∈ (l :: ls) ++ curList none := by
          intro sp hsp
          simp [curList] at hsp ⊢
          tauto
        refine ⟨⟨?_, ?_, ?_⟩, rfl⟩
        · intro e' he' hm
          exact hS1 e' he' (memSpans_mono hsub hm)
        · intro sp hsp
          exact absurd hsp (List.not_mem_nil sp)
        · intro d hd off hoff hm e' he' hat
          exact hS3 d hd off hoff (memSpans_mono hsub hm) e' he' hat

theorem runAux_settled : ∀ (s : IterState), InvDel s → Settled s →
    ∃ t', runAux s = some ([], t') := by
  intro s hinv hset
  cases hstep : step s with
  | fail => exact absurd hstep (step_no_fail hinv)
  | done => exact ⟨s.t, runAux_done hstep⟩
  | cont s' e =>
    obtain ⟨hset', rfl⟩ := step_settled hstep hinv hset
    obtain ⟨t', ht'⟩ := runAux_settled s' (step_InvDel hstep hinv) hset'
    rw [runAux_cont hstep, ht']
    exact ⟨t', rfl⟩
termination_by s => rank s
decreasing_by exact step_rank_lt hstep

/-- C1: an `Ins` effect is emitted only when applying `SetAsCurrent` to the
resolved insertion cursor yields a strictly positive visible-length delta
(the visible length grows by exactly the emitted content's length); hence a
pass whose target id-spans are already settled — every covered content
element is current and every content element targeted by a covered delete
slice is already invisible, as after a previous integration of the same
spans (duplicate delivery) — produces zero effects, so the effect sequence
of any span is produced at most once. -/
theorem insert_replay_idempotent :
    (∀ (s s' : IterState) (pos : Nat) (content : IdSpan),
      step s = .cont s' (some (.ins pos content)) →
      0 < content.len ∧
        (s'.t.totalVisible : Int) = (s.t.totalVisible : Int) + content.len) ∧
    (∀ (t : Tracker) (targets : List IdSpan), WFdel t →
      (∀ e ∈ t.elems, memSpans targets e.client e.counter →
        e.future = false) →
      (∀ d ∈ t.deletes, ∀ off, off < d.len →
        memSpans targets d.client (d.counter + off) →
        ∀ e ∈ t.elems, targetIdAt d.targets off = some (e.client, e.counter) →
        1 ≤ e.deleteTimes) →
      ∃ t', runEffects t targets = some ([], t')) := by
  constructor
  · intro s s' pos content h
    exact step_ins_emits h
  · intro t targets hwf h1 h3
    apply runAux_settled ⟨t, targets, none, []⟩
      ⟨hwf, fun sp hsp => absurd hsp (List.not_mem_nil sp)⟩
    refine ⟨?_, ?_, ?_⟩
    · intro e he hm
      apply h1 e he
      rwa [curList_none, List.append_nil] at hm
    · intro sp hsp
      exact absurd hsp (List.not_mem_nil sp)
    · intro d hd off hoff hm
      apply h3 d hd off hoff
      rwa [curList_none, List.append_nil] at hm

theorem insert_replay_idempotent_witness :
    (∃ t', runEffects helloAfterOne [⟨1, 0, 5⟩, ⟨2, 0, 2⟩] = some ([], t')) ∧
      0 < (IdSpan.mk 1 0 2).len := by
  constructor
  · exact insert_replay_idempotent.2 helloAfterOne [⟨1, 0, 5⟩, ⟨2, 0, 2⟩]
      (by decide) (by decide) (by decide)
  · exact (insert_replay_idempotent.1
      ⟨⟨[⟨1, 0, true, 0⟩, ⟨1, 1, true, 0⟩], []⟩, [], some ⟨1, 0, 2⟩, []⟩
      ⟨⟨[⟨1, 0, false, 0⟩, ⟨1, 1, false, 0⟩], []⟩, [], some ⟨1, 2, 2⟩, []⟩
      0 ⟨1, 0, 2⟩ (by decide)).1

end LoroSpec
